import Mathlib

/-!
Verification of the document-organizer core (brikmates repository).

This file shallowly embeds the deterministic core of the repository:
* the fuzzy-matching grouping engine (`src/mastra/utils/grouping.ts`),
* the chunk splitter / extraction merger / chunked processor
  (`src/mastra/utils/chunkedProcessor.ts`),
* the content cache state machine (`src/mastra/workflows/organizeDocuments.ts`),
* the lease query API (`leaseQuery` module).

JavaScript objects used as string-keyed dictionaries are modelled as
insertion-ordered association lists (new keys are appended at the end,
matching JS property insertion order).  JavaScript strings are modelled as
Lean `String`/`List Char`; numeric sizes as `Nat`.
-/

set_option maxHeartbeats 1000000

/-! ## Data model (`src/mastra/utils/types.ts`, `agents/classifier.ts`, `agents/extractor.ts`) -/

/-- `ClassificationResult` from `classifier.ts`.  `documentType` is kept as a
raw string so that the `default` branch of the grouping switch (any
other/unrecognized type) is representable. -/
structure ClassificationResult where
  documentType : String
  confidence : String
  reasoning : String
deriving Repr, DecidableEq

/-- `ExtractionResult` from `extractor.ts`: `baseReference` is optional. -/
structure ExtractionResult where
  lessor : String
  address : String
  tenant : String
  baseReference : Option String
deriving Repr, DecidableEq

/-- `ProcessedDocument` from `types.ts`. -/
structure ProcessedDocument where
  id : String
  filename : String
  classification : ClassificationResult
  extraction : ExtractionResult
  content : String
deriving Repr, DecidableEq

/-- `LeaseFile` from `types.ts`. -/
structure LeaseFile where
  baseLease : Option String
  amendments : List String
  commencements : List String
  deliveries : List String
  others : List String
deriving Repr, DecidableEq

/-- The value stored under a lessor/address pair in `GroupedOutput`. -/
structure AddressGroup where
  leaseFile : LeaseFile
  documents : List ProcessedDocument
deriving Repr, DecidableEq

/-- `GroupedOutput`: lessor -> address -> AddressGroup, as insertion-ordered
association lists. -/
abbrev AddressMap := List (String × AddressGroup)

abbrev GroupedOutput := List (String × AddressMap)

/-- The `stats` record of `GroupingResult`. -/
structure GroupingStats where
  totalDocuments : Nat
  groupedDocuments : Nat
  ungroupedDocuments : Nat
  lessors : Nat
  addresses : Nat
deriving Repr, DecidableEq

/-- `GroupingResult` from `types.ts`. -/
structure GroupingResult where
  grouped : GroupedOutput
  ungrouped : List ProcessedDocument
  stats : GroupingStats
deriving Repr, DecidableEq

/-! ## Association-list helpers (JS object semantics) -/

/-- Look up the first binding of key `k` (JS property read). -/
def alistLookup {α : Type} (l : List (String × α)) (k : String) : Option α :=
  (l.find? (fun p => p.1 == k)).map (·.2)

/-- JS `if (!obj[k]) obj[k] = d`: append the binding if the key is absent
(insertion order preserved). -/
def ensureKey {α : Type} (l : List (String × α)) (k : String) (d : α) : List (String × α) :=
  match alistLookup l k with
  | some _ => l
  | none => l ++ [(k, d)]

/-- JS in-place update of the value stored at an existing key (keys are
unique in a JS object, so updating the first binding is exact). -/
def updateAt {α : Type} (l : List (String × α)) (k : String) (f : α → α) : List (String × α) :=
  match l with
  | [] => []
  | p :: rest => if p.1 == k then (p.1, f p.2) :: rest else p :: updateAt rest k f

/-! ## `string-similarity`'s `compareTwoStrings` (Dice coefficient on bigrams)

The npm dependency used by `findFuzzyMatch`.  Scores are exact rationals;
JS `x.replace(/\s+/g, '')` is whitespace removal. -/

def replaceWhitespace (s : String) : String :=
  String.mk (s.data.filter (fun c => !c.isWhitespace))

/-- JS `toLowerCase`, as a character-wise map (same function as Lean's
`String.toLower`, written over the character list). -/
def toLowerCase (s : String) : String := String.mk (s.data.map Char.toLower)

/-- Consecutive character bigrams of a string's characters. -/
def bigramsOf : List Char → List (Char × Char)
  | a :: b :: rest => (a, b) :: bigramsOf (b :: rest)
  | _ => []

/-- Build the bigram multiplicity map (JS `Map` keyed by bigram). -/
def buildBigramMap (bs : List (Char × Char)) : List ((Char × Char) × Nat) :=
  bs.foldl
    (fun m b =>
      match alistLookupBG m b with
      | some n => updateBG m b (n + 1)
      | none => m ++ [(b, 1)])
    []
where
  alistLookupBG (m : List ((Char × Char) × Nat)) (b : Char × Char) : Option Nat :=
    (m.find? (fun p => p.1 == b)).map (·.2)
  updateBG (m : List ((Char × Char) × Nat)) (b : Char × Char) (n : Nat) :
      List ((Char × Char) × Nat) :=
    m.map (fun p => if p.1 == b then (p.1, n) else p)

/-- The intersection-counting loop over the second string's bigrams. -/
def bigramIntersection (m : List ((Char × Char) × Nat)) (bs : List (Char × Char)) : Nat :=
  (bs.foldl
    (fun (acc : List ((Char × Char) × Nat) × Nat) b =>
      match buildBigramMap.alistLookupBG acc.1 b with
      | some n =>
        if 0 < n then (buildBigramMap.updateBG acc.1 b (n - 1), acc.2 + 1) else acc
      | none => acc)
    (m, 0)).2

/-- `compareTwoStrings` from the `string-similarity` package. -/
def compareTwoStrings (a b : String) : Rat :=
  let f := replaceWhitespace a
  let s := replaceWhitespace b
  if f = s then 1
  else if f.length < 2 ∨ s.length < 2 then 0
  else
    let inter := bigramIntersection (buildBigramMap (bigramsOf f.data)) (bigramsOf s.data)
    mkRat (2 * inter) (f.length + s.length - 2)

/-! ## Fuzzy grouping engine (`grouping.ts`) -/

/-- `SIMILARITY_THRESHOLD = 0.8`. -/
def SIMILARITY_THRESHOLD : Rat := mkRat 4 5

/-- `findFuzzyMatch`: first candidate whose lower-cased similarity to the
needle reaches the threshold. -/
def findFuzzyMatch (needle : String) (haystack : List String) : Option String :=
  haystack.find? (fun candidate =>
    decide (SIMILARITY_THRESHOLD ≤ compareTwoStrings (toLowerCase needle) (toLowerCase candidate)))

/-- JS `x || y` on a string-or-null value: `null` and `""` both fall through
to the default. -/
def jsStringOr (o : Option String) (dflt : String) : String :=
  match o with
  | some s => if s = "" then dflt else s
  | none => dflt

def emptyLeaseFile : LeaseFile :=
  { baseLease := none, amendments := [], commencements := [], deliveries := [], others := [] }

def emptyAddressGroup : AddressGroup :=
  { leaseFile := emptyLeaseFile, documents := [] }

/-- The `switch (docType)` of `groupDocuments`, acting on the lease file. -/
def categorize (lf : LeaseFile) (docType : String) (id : String) : LeaseFile :=
  if docType = "lease" then
    match lf.baseLease with
    | none => { lf with baseLease := some id }
    | some _ => { lf with others := lf.others ++ [id] }
  else if docType = "amendment" then { lf with amendments := lf.amendments ++ [id] }
  else if docType = "rent_commencement" then
    { lf with commencements := lf.commencements ++ [id] }
  else if docType = "delivery_letter" then { lf with deliveries := lf.deliveries ++ [id] }
  else { lf with others := lf.others ++ [id] }

/-- `group.documents.push(doc)` followed by the categorize switch. -/
def addDocToGroup (g : AddressGroup) (doc : ProcessedDocument) : AddressGroup :=
  { leaseFile := categorize g.leaseFile doc.classification.documentType doc.id,
    documents := g.documents ++ [doc] }

/-- The body of `groupDocuments`' loop for a document with known lessor and
address: fuzzy match-or-create at both levels, then insert the document. -/
def insertDoc (grouped : GroupedOutput) (doc : ProcessedDocument) : GroupedOutput :=
  let lessor := doc.extraction.lessor
  let address := doc.extraction.address
  let matchedLessor := jsStringOr (findFuzzyMatch lessor (grouped.map (·.1))) lessor
  let grouped1 := ensureKey grouped matchedLessor []
  let addrs := (alistLookup grouped1 matchedLessor).getD []
  let matchedAddress := jsStringOr (findFuzzyMatch address (addrs.map (·.1))) address
  let addrs1 := ensureKey addrs matchedAddress emptyAddressGroup
  let addrs2 := updateAt addrs1 matchedAddress (fun g => addDocToGroup g doc)
  updateAt grouped1 matchedLessor (fun _ => addrs2)

/-- One step of the `for (const doc of documents)` loop. -/
def groupStep (acc : GroupedOutput × List ProcessedDocument) (doc : ProcessedDocument) :
    GroupedOutput × List ProcessedDocument :=
  if doc.extraction.lessor = "unknown" ∨ doc.extraction.address = "unknown" then
    (acc.1, acc.2 ++ [doc])
  else
    (insertDoc acc.1 doc, acc.2)

/-- The stats recomputation: sum of `documents.length` over every group. -/
def groupedCountOf (g : GroupedOutput) : Nat :=
  (g.map (fun p => (p.2.map (fun q => q.2.documents.length)).sum)).sum

/-- The stats recomputation: total number of address keys. -/
def addressCountOf (g : GroupedOutput) : Nat :=
  (g.map (fun p => p.2.length)).sum

/-- `groupDocuments` from `grouping.ts`. -/
def groupDocuments (documents : List ProcessedDocument) : GroupingResult :=
  let acc := documents.foldl groupStep ([], [])
  { grouped := acc.1
    ungrouped := acc.2
    stats :=
      { totalDocuments := documents.length
        groupedDocuments := groupedCountOf acc.1
        ungroupedDocuments := acc.2.length
        lessors := acc.1.length
        addresses := addressCountOf acc.1 } }

/-! ## Association-list lemmas for the grouping proofs -/

theorem alistLookup_cons {α : Type} (p : String × α) (l : List (String × α)) (k : String) :
    alistLookup (p :: l) k = if p.1 == k then some p.2 else alistLookup l k := by
  simp only [alistLookup, List.find?]
  by_cases h : p.1 == k
  · simp [h]
  · simp [h]

theorem alistLookup_append_right {α : Type} (l l' : List (String × α)) (k : String)
    (h : alistLookup l k = none) : alistLookup (l ++ l') k = alistLookup l' k := by
  induction l with
  | nil => simp
  | cons p rest ih =>
    rw [alistLookup_cons] at h
    by_cases hp : p.1 == k
    · simp [hp] at h
    · simp only [List.cons_append, alistLookup_cons, hp, if_neg, Bool.false_eq_true,
        not_false_eq_true, if_false] at h ⊢
      exact ih h

theorem lookup_ensureKey {α : Type} (l : List (String × α)) (k : String) (d : α) :
    ∃ a, alistLookup (ensureKey l k d) k = some a ∧
      (alistLookup l k = some a ∨ (alistLookup l k = none ∧ a = d)) := by
  cases h : alistLookup l k with
  | some a =>
    refine ⟨a, ?_, Or.inl rfl⟩
    simp [ensureKey, h]
  | none =>
    refine ⟨d, ?_, Or.inr ⟨rfl, rfl⟩⟩
    simp only [ensureKey, h]
    rw [alistLookup_append_right _ _ _ h, alistLookup_cons]
    simp

theorem sumMeasure_ensureKey {α : Type} (μ : α → Nat) (l : List (String × α)) (k : String)
    (d : α) (hd : μ d = 0) :
    ((ensureKey l k d).map (fun p => μ p.2)).sum = (l.map (fun p => μ p.2)).sum := by
  cases h : alistLookup l k with
  | some a => simp [ensureKey, h]
  | none => simp [ensureKey, h, hd]

theorem sumMeasure_updateAt_const {α : Type} (μ : α → Nat) (l : List (String × α)) (k : String)
    (a b : α) (h : alistLookup l k = some a) :
    ((updateAt l k (fun _ => b)).map (fun p => μ p.2)).sum + μ a
      = (l.map (fun p => μ p.2)).sum + μ b := by
  induction l with
  | nil => simp [alistLookup] at h
  | cons p rest ih =>
    rw [alistLookup_cons] at h
    by_cases hp : p.1 == k
    · rw [if_pos hp] at h
      cases h
      simp only [updateAt, if_pos hp, List.map_cons, List.sum_cons]
      omega
    · rw [if_neg hp] at h
      simp only [updateAt, if_neg hp, List.map_cons, List.sum_cons]
      have := ih h
      omega

theorem sumMeasure_updateAt_incr {α : Type} (μ : α → Nat) (l : List (String × α)) (k : String)
    (f : α → α) (hf : ∀ x, μ (f x) = μ x + 1) (a : α) (h : alistLookup l k = some a) :
    ((updateAt l k f).map (fun p => μ p.2)).sum = (l.map (fun p => μ p.2)).sum + 1 := by
  induction l with
  | nil => simp [alistLookup] at h
  | cons p rest ih =>
    rw [alistLookup_cons] at h
    by_cases hp : p.1 == k
    · simp only [updateAt, if_pos hp, List.map_cons, List.sum_cons, hf]
      omega
    · rw [if_neg hp] at h
      simp only [updateAt, if_neg hp, List.map_cons, List.sum_cons]
      have := ih h
      omega

/-- Membership after `updateAt`: every binding is an old binding or the
updated image of the first binding of `k`. -/
theorem mem_updateAt {α : Type} (l : List (String × α)) (k : String) (f : α → α)
    (y : String × α) (hy : y ∈ updateAt l k f) :
    y ∈ l ∨ ∃ a, alistLookup l k = some a ∧ y = (k, f a) := by
  induction l with
  | nil => simp [updateAt] at hy
  | cons p rest ih =>
    simp only [updateAt] at hy
    by_cases hp : p.1 == k
    · rw [if_pos hp] at hy
      rcases List.mem_cons.mp hy with h | h
      · right
        refine ⟨p.2, ?_, ?_⟩
        · rw [alistLookup_cons, if_pos hp]
        · rw [h]
          have : p.1 = k := by simpa using hp
          rw [this]
      · exact Or.inl (List.mem_cons_of_mem _ h)
    · rw [if_neg hp] at hy
      rcases List.mem_cons.mp hy with h | h
      · exact Or.inl (h ▸ List.mem_cons_self _ _)
      · rcases ih h with h' | ⟨a, ha, hey⟩
        · exact Or.inl (List.mem_cons_of_mem _ h')
        · right
          refine ⟨a, ?_, hey⟩
          rw [alistLookup_cons, if_neg hp]
          exact ha

/-- Membership after `ensureKey`: old binding or the fresh default binding. -/
theorem mem_ensureKey {α : Type} (l : List (String × α)) (k : String) (d : α)
    (y : String × α) (hy : y ∈ ensureKey l k d) :
    y ∈ l ∨ y = (k, d) := by
  cases h : alistLookup l k with
  | some a =>
    rw [ensureKey, h] at hy
    exact Or.inl hy
  | none =>
    rw [ensureKey, h] at hy
    rcases List.mem_append.mp hy with h | h
    · exact Or.inl h
    · simp at h
      exact Or.inr (by rw [h])

/-! ## C1: stats recomputation invariant -/

/-- Document count of one address map. -/
def docCountA (addrs : AddressMap) : Nat :=
  (addrs.map (fun q => q.2.documents.length)).sum

theorem groupedCountOf_eq (g : GroupedOutput) :
    groupedCountOf g = (g.map (fun p => docCountA p.2)).sum := rfl

/-- Inserting one known document grows the recomputed grouped count by one. -/
theorem groupedCountOf_insertDoc (g : GroupedOutput) (doc : ProcessedDocument) :
    groupedCountOf (insertDoc g doc) = groupedCountOf g + 1 := by
  simp only [insertDoc]
  set ml := jsStringOr (findFuzzyMatch doc.extraction.lessor (g.map (·.1))) doc.extraction.lessor
  set g1 := ensureKey g ml ([] : AddressMap) with hg1
  obtain ⟨addrs0, hlk, hsrc⟩ := lookup_ensureKey g ml ([] : AddressMap)
  rw [← hg1] at hlk
  have haddrs : (alistLookup g1 ml).getD [] = addrs0 := by rw [hlk]; rfl
  rw [haddrs]
  set ma := jsStringOr (findFuzzyMatch doc.extraction.address (addrs0.map (·.1)))
    doc.extraction.address
  set addrs1 := ensureKey addrs0 ma emptyAddressGroup with ha1
  obtain ⟨grp0, hlk2, _⟩ := lookup_ensureKey addrs0 ma emptyAddressGroup
  rw [← ha1] at hlk2
  have hcount2 : docCountA (updateAt addrs1 ma (fun gr => addDocToGroup gr doc))
      = docCountA addrs0 + 1 := by
    have step := sumMeasure_updateAt_incr (fun gr => gr.documents.length) addrs1 ma
      (fun gr => addDocToGroup gr doc) (by intro x; simp [addDocToGroup]) grp0 hlk2
    have base := sumMeasure_ensureKey (fun gr : AddressGroup => gr.documents.length)
      addrs0 ma emptyAddressGroup (by simp [emptyAddressGroup])
    rw [← ha1] at base
    unfold docCountA
    rw [step, base]
  have outer := sumMeasure_updateAt_const (fun addrs : AddressMap => docCountA addrs) g1 ml
    addrs0 (updateAt addrs1 ma (fun gr => addDocToGroup gr doc)) hlk
  have base1 := sumMeasure_ensureKey (fun addrs : AddressMap => docCountA addrs) g ml
    ([] : AddressMap) rfl
  rw [← hg1] at base1
  rw [groupedCountOf_eq, groupedCountOf_eq] at *
  beta_reduce at outer base1 hcount2 ⊢
  omega

/-- Characterization of the ungrouped list: exactly the documents whose
lessor or address is the sentinel, in input order. -/
theorem foldl_groupStep_ungrouped (docs : List ProcessedDocument)
    (acc : GroupedOutput × List ProcessedDocument) :
    (docs.foldl groupStep acc).2 = acc.2 ++ docs.filter
      (fun d => d.extraction.lessor == "unknown" || d.extraction.address == "unknown") := by
  induction docs generalizing acc with
  | nil => simp
  | cons d rest ih =>
    simp only [List.foldl_cons, List.filter_cons]
    by_cases h : d.extraction.lessor = "unknown" ∨ d.extraction.address = "unknown"
    · have hb : (d.extraction.lessor == "unknown" || d.extraction.address == "unknown") = true := by
        rcases h with h | h <;> simp [h]
      rw [ih, hb]
      simp [groupStep, h]
    · have hb : (d.extraction.lessor == "unknown" || d.extraction.address == "unknown") = false := by
        push_neg at h
        simp [h.1, h.2]
      rw [ih, hb]
      simp [groupStep, h]

/-- The grouped + ungrouped count invariant along the fold. -/
theorem foldl_groupStep_count (docs : List ProcessedDocument)
    (acc : GroupedOutput × List ProcessedDocument) :
    groupedCountOf (docs.foldl groupStep acc).1 + (docs.foldl groupStep acc).2.length
      = groupedCountOf acc.1 + acc.2.length + docs.length := by
  induction docs generalizing acc with
  | nil => simp
  | cons d rest ih =>
    simp only [List.foldl_cons, List.length_cons]
    rw [ih]
    unfold groupStep
    by_cases h : d.extraction.lessor = "unknown" ∨ d.extraction.address = "unknown"
    · simp [h]
      omega
    · simp only [h, if_neg, not_false_eq_true]
      rw [groupedCountOf_insertDoc]
      omega

/-- C1: `groupDocuments` stats satisfy
`groupedDocuments + ungroupedDocuments = totalDocuments = input length`, and
the grouped/ungrouped stats are pure recomputations from the final hierarchy
and ungrouped list. -/
theorem c1_stats_recomputed (documents : List ProcessedDocument) :
    (groupDocuments documents).stats.groupedDocuments
        = groupedCountOf (groupDocuments documents).grouped
    ∧ (groupDocuments documents).stats.ungroupedDocuments
        = (groupDocuments documents).ungrouped.length
    ∧ (groupDocuments documents).stats.totalDocuments = documents.length
    ∧ (groupDocuments documents).stats.groupedDocuments
        + (groupDocuments documents).stats.ungroupedDocuments
        = (groupDocuments documents).stats.totalDocuments := by
  refine ⟨rfl, rfl, rfl, ?_⟩
  have h := foldl_groupStep_count documents ([], [])
  have h0 : groupedCountOf [] = 0 := rfl
  rw [h0] at h
  simpa [groupDocuments] using h

/-! ## C2: unknown-sentinel documents are ungrouped and absent from the hierarchy -/

/-- All ids referenced by a lease file (base lease slot and the four lists). -/
def leaseFileIds (lf : LeaseFile) : List String :=
  lf.baseLease.toList ++ lf.amendments ++ lf.commencements ++ lf.deliveries ++ lf.others

/-- All ids appearing in one address group (bundle slots and document list). -/
def groupIds (g : AddressGroup) : List String :=
  leaseFileIds g.leaseFile ++ g.documents.map (·.id)

/-- All ids of one address map. -/
def innerIds (addrs : AddressMap) : List String :=
  (addrs.map (fun q => groupIds q.2)).flatten

/-- Every id appearing anywhere in the hierarchy. -/
def hierarchyIds (g : GroupedOutput) : List String :=
  (g.map (fun p => innerIds p.2)).flatten

theorem mem_innerIds {addrs : AddressMap} {x : String} :
    x ∈ innerIds addrs ↔ ∃ q ∈ addrs, x ∈ groupIds q.2 := by
  simp only [innerIds, List.mem_flatten, List.mem_map]
  constructor
  · rintro ⟨l, ⟨q, hq, rfl⟩, hx⟩
    exact ⟨q, hq, hx⟩
  · rintro ⟨q, hq, hx⟩
    exact ⟨groupIds q.2, ⟨q, hq, rfl⟩, hx⟩

theorem mem_hierarchyIds {g : GroupedOutput} {x : String} :
    x ∈ hierarchyIds g ↔ ∃ p ∈ g, x ∈ innerIds p.2 := by
  simp only [hierarchyIds, List.mem_flatten, List.mem_map]
  constructor
  · rintro ⟨l, ⟨p, hp, rfl⟩, hx⟩
    exact ⟨p, hp, hx⟩
  · rintro ⟨p, hp, hx⟩
    exact ⟨innerIds p.2, ⟨p, hp, rfl⟩, hx⟩

theorem leaseFileIds_categorize (lf : LeaseFile) (t id : String) (x : String)
    (hx : x ∈ leaseFileIds (categorize lf t id)) : x ∈ leaseFileIds lf ∨ x = id := by
  unfold categorize at hx
  by_cases h1 : t = "lease"
  · rw [if_pos h1] at hx
    cases hb : lf.baseLease with
    | none =>
      rw [hb] at hx
      simp only [leaseFileIds, hb] at hx ⊢
      simp only [List.append_assoc, List.mem_append] at hx ⊢
      rcases hx with hx | hx
      · simp at hx
        exact Or.inr hx
      · exact Or.inl (by simp [hx])
    | some b =>
      rw [hb] at hx
      simp only [leaseFileIds, hb] at hx ⊢
      simp only [List.append_assoc, List.mem_append, List.mem_singleton] at hx ⊢
      tauto
  · rw [if_neg h1] at hx
    by_cases h2 : t = "amendment"
    · rw [if_pos h2] at hx
      simp only [leaseFileIds] at hx ⊢
      simp only [List.append_assoc, List.mem_append, List.mem_singleton] at hx ⊢
      tauto
    · rw [if_neg h2] at hx
      by_cases h3 : t = "rent_commencement"
      · rw [if_pos h3] at hx
        simp only [leaseFileIds] at hx ⊢
        simp only [List.append_assoc, List.mem_append, List.mem_singleton] at hx ⊢
        tauto
      · rw [if_neg h3] at hx
        by_cases h4 : t = "delivery_letter"
        · rw [if_pos h4] at hx
          simp only [leaseFileIds] at hx ⊢
          simp only [List.append_assoc, List.mem_append, List.mem_singleton] at hx ⊢
          tauto
        · rw [if_neg h4] at hx
          simp only [leaseFileIds] at hx ⊢
          simp only [List.append_assoc, List.mem_append, List.mem_singleton] at hx ⊢
          tauto

theorem groupIds_addDocToGroup (g : AddressGroup) (doc : ProcessedDocument) (x : String)
    (hx : x ∈ groupIds (addDocToGroup g doc)) : x ∈ groupIds g ∨ x = doc.id := by
  simp only [groupIds, addDocToGroup, List.mem_append] at hx ⊢
  rcases hx with hx | hx
  · rcases leaseFileIds_categorize _ _ _ _ hx with h | h
    · tauto
    · tauto
  · simp only [List.map_append, List.mem_append, List.map_cons, List.map_nil,
      List.mem_singleton] at hx
    tauto

theorem groupIds_empty (x : String) : x ∈ groupIds emptyAddressGroup → False := by
  simp [groupIds, emptyAddressGroup, emptyLeaseFile, leaseFileIds]

theorem lookup_mem {α : Type} {l : List (String × α)} {k : String} {a : α}
    (h : alistLookup l k = some a) : ∃ p ∈ l, p.2 = a := by
  unfold alistLookup at h
  cases hf : l.find? (fun p => p.1 == k) with
  | none => rw [hf] at h; simp at h
  | some p =>
    rw [hf] at h
    simp at h
    exact ⟨p, List.mem_of_find?_eq_some hf, h⟩

/-- Inserting one document only ever adds that document's id. -/
theorem hierarchyIds_insertDoc (g : GroupedOutput) (doc : ProcessedDocument) (x : String)
    (hx : x ∈ hierarchyIds (insertDoc g doc)) : x ∈ hierarchyIds g ∨ x = doc.id := by
  simp only [insertDoc] at hx
  set ml := jsStringOr (findFuzzyMatch doc.extraction.lessor (g.map (·.1))) doc.extraction.lessor
  set g1 := ensureKey g ml ([] : AddressMap) with hg1
  obtain ⟨addrs0, hlk, hsrc⟩ := lookup_ensureKey g ml ([] : AddressMap)
  rw [← hg1] at hlk
  have haddrs : (alistLookup g1 ml).getD [] = addrs0 := by rw [hlk]; rfl
  rw [haddrs] at hx
  set ma := jsStringOr (findFuzzyMatch doc.extraction.address (addrs0.map (·.1)))
    doc.extraction.address
  set addrs1 := ensureKey addrs0 ma emptyAddressGroup with ha1
  -- membership in the updated outer map
  rcases mem_hierarchyIds.mp hx with ⟨p, hp, hpx⟩
  have haddrs0_mem : x ∈ innerIds addrs0 → x ∈ hierarchyIds g ∨ x = doc.id := by
    intro hin
    rcases hsrc with hs | ⟨_, rfl⟩
    · rcases lookup_mem hs with ⟨p0, hp0, hp02⟩
      exact Or.inl (mem_hierarchyIds.mpr ⟨p0, hp0, by rw [hp02]; exact hin⟩)
    · simp [innerIds] at hin
  rcases mem_updateAt _ _ _ _ hp with hpin | ⟨a, hla, rfl⟩
  · -- untouched binding of the (possibly extended) outer map
    rcases mem_ensureKey _ _ _ _ hpin with hpg | rfl
    · exact Or.inl (mem_hierarchyIds.mpr ⟨p, hpg, hpx⟩)
    · simp [innerIds] at hpx
  · -- the updated binding: the new address map
    have ha' : addrs0 = a := by rw [hlk] at hla; exact Option.some_inj.mp hla
    subst ha'
    simp only at hpx
    rcases mem_innerIds.mp hpx with ⟨q, hq, hqx⟩
    rcases mem_updateAt _ _ _ _ hq with hqin | ⟨b, hlb, rfl⟩
    · rcases mem_ensureKey _ _ _ _ hqin with hq0 | rfl
      · exact haddrs0_mem (mem_innerIds.mpr ⟨q, hq0, hqx⟩)
      · exact absurd hqx (groupIds_empty x)
    · simp only at hqx
      rcases groupIds_addDocToGroup _ _ _ hqx with hbx | rfl
      · obtain ⟨b0, hb0⟩ := lookup_ensureKey addrs0 ma emptyAddressGroup
        rw [← ha1] at hb0
        rcases hb0 with ⟨hb0l, hb0s⟩
        have : b = b0 := by rw [hlb] at hb0l; exact Option.some_inj.mp hb0l
        subst this
        rcases hb0s with hbs | ⟨_, rfl⟩
        · rcases lookup_mem hbs with ⟨q0, hq0, hq02⟩
          exact haddrs0_mem (mem_innerIds.mpr ⟨q0, hq0, by rw [hq02]; exact hbx⟩)
        · exact absurd hbx (groupIds_empty x)
      · exact Or.inr rfl

/-- Along the fold, any id in the hierarchy comes from a processed document
with known lessor and address. -/
theorem foldl_groupStep_ids (docs : List ProcessedDocument)
    (acc : GroupedOutput × List ProcessedDocument) (x : String)
    (hx : x ∈ hierarchyIds (docs.foldl groupStep acc).1) :
    x ∈ hierarchyIds acc.1 ∨ ∃ d ∈ docs, x = d.id ∧
      d.extraction.lessor ≠ "unknown" ∧ d.extraction.address ≠ "unknown" := by
  induction docs generalizing acc with
  | nil => exact Or.inl hx
  | cons d rest ih =>
    simp only [List.foldl_cons] at hx
    rcases ih _ hx with h | ⟨d', hd', hrest⟩
    · unfold groupStep at h
      by_cases hu : d.extraction.lessor = "unknown" ∨ d.extraction.address = "unknown"
      · rw [if_pos hu] at h
        exact Or.inl h
      · rw [if_neg hu] at h
        push_neg at hu
        rcases hierarchyIds_insertDoc _ _ _ h with h' | rfl
        · exact Or.inl h'
        · exact Or.inr ⟨d, List.mem_cons_self _ _, rfl, hu.1, hu.2⟩
    · exact Or.inr ⟨d', List.mem_cons_of_mem _ hd', hrest⟩

/-- C2: a document whose extracted lessor or address is the `"unknown"`
sentinel lands in the ungrouped list, and (document ids being unique) its id
appears nowhere in the hierarchy: in no bundle slot and in no group's
document list. -/
theorem c2_unknown_ungrouped (documents : List ProcessedDocument) (d : ProcessedDocument)
    (hnodup : (documents.map (·.id)).Nodup) (hd : d ∈ documents)
    (hu : d.extraction.lessor = "unknown" ∨ d.extraction.address = "unknown") :
    d ∈ (groupDocuments documents).ungrouped
      ∧ d.id ∉ hierarchyIds (groupDocuments documents).grouped := by
  constructor
  · show d ∈ (documents.foldl groupStep ([], [])).2
    rw [foldl_groupStep_ungrouped]
    simp only [List.nil_append, List.mem_filter]
    refine ⟨hd, ?_⟩
    rcases hu with h | h <;> simp [h]
  · intro hmem
    rcases foldl_groupStep_ids documents ([], []) d.id hmem with h | ⟨d', hd', hid, hl, ha⟩
    · simp [hierarchyIds, innerIds] at h
    · have hne : d' ≠ d := by
        rintro rfl
        rcases hu with h | h
        · exact hl h
        · exact ha h
      -- two distinct documents share the id, contradicting Nodup
      have hinj := List.inj_on_of_nodup_map hnodup
      exact hne (hinj hd' hd hid.symm)

/-! ## C3: bundle typing (base lease, dedicated lists, others) -/

/-- Replay of the categorize switch over a document list starting from the
empty lease file; the invariant ties every group's `leaseFile` to this
replay over its own `documents` list. -/
def leaseFileOf (ds : List ProcessedDocument) : LeaseFile :=
  ds.foldl (fun lf d => categorize lf d.classification.documentType d.id) emptyLeaseFile

/-- Spec-side description of the `others` list: lease-typed documents after
the first, plus documents of non-dedicated type, in input order.
`seenLease` records whether a base lease has already been taken. -/
def restOthers (ds : List ProcessedDocument) (seenLease : Bool) : List String :=
  match ds with
  | [] => []
  | d :: rest =>
    if d.classification.documentType = "lease" then
      if seenLease then d.id :: restOthers rest true else restOthers rest true
    else if d.classification.documentType = "amendment"
        ∨ d.classification.documentType = "rent_commencement"
        ∨ d.classification.documentType = "delivery_letter" then
      restOthers rest seenLease
    else d.id :: restOthers rest seenLease

theorem categorize_fold_baseLease_some (ds : List ProcessedDocument) (lf : LeaseFile)
    (b : String) (h : lf.baseLease = some b) :
    (ds.foldl (fun lf d => categorize lf d.classification.documentType d.id) lf).baseLease
      = some b := by
  induction ds generalizing lf with
  | nil => exact h
  | cons d rest ih =>
    simp only [List.foldl_cons]
    apply ih
    unfold categorize
    by_cases h1 : d.classification.documentType = "lease"
    · rw [if_pos h1, h]
    · rw [if_neg h1]
      split_ifs <;> simpa using h

theorem categorize_fold_baseLease (ds : List ProcessedDocument) (lf : LeaseFile)
    (h : lf.baseLease = none) :
    (ds.foldl (fun lf d => categorize lf d.classification.documentType d.id) lf).baseLease
      = (ds.find? (fun d => d.classification.documentType == "lease")).map (·.id) := by
  induction ds generalizing lf with
  | nil => simp [h]
  | cons d rest ih =>
    simp only [List.foldl_cons, List.find?]
    by_cases h1 : d.classification.documentType = "lease"
    · have hb : (d.classification.documentType == "lease") = true := by simp [h1]
      rw [hb]
      simp only [Option.map_some]
      apply categorize_fold_baseLease_some
      unfold categorize
      rw [if_pos h1, h]
    · have hb : (d.classification.documentType == "lease") = false := by simp [h1]
      rw [hb]
      apply ih
      unfold categorize
      rw [if_neg h1]
      split_ifs <;> simpa using h

theorem categorize_amendments_eq (lf : LeaseFile) (t id : String) :
    (categorize lf t id).amendments
      = if t = "amendment" then lf.amendments ++ [id] else lf.amendments := by
  unfold categorize
  by_cases h1 : t = "lease"
  · rw [if_pos h1]
    cases lf.baseLease <;> simp [h1]
  · rw [if_neg h1]
    by_cases h2 : t = "amendment"
    · simp [h2]
    · rw [if_neg h2, if_neg h2]
      by_cases h3 : t = "rent_commencement"
      · simp [h3]
      · rw [if_neg h3]
        by_cases h4 : t = "delivery_letter"
        · simp [h4]
        · rw [if_neg h4]

theorem categorize_commencements_eq (lf : LeaseFile) (t id : String) :
    (categorize lf t id).commencements
      = if t = "rent_commencement" then lf.commencements ++ [id] else lf.commencements := by
  unfold categorize
  by_cases h1 : t = "lease"
  · rw [if_pos h1]
    cases lf.baseLease <;> simp [h1]
  · rw [if_neg h1]
    by_cases h2 : t = "amendment"
    · simp [h2]
    · rw [if_neg h2]
      by_cases h3 : t = "rent_commencement"
      · simp [h3]
      · rw [if_neg h3, if_neg h3]
        by_cases h4 : t = "delivery_letter"
        · simp [h4]
        · rw [if_neg h4]

theorem categorize_deliveries_eq (lf : LeaseFile) (t id : String) :
    (categorize lf t id).deliveries
      = if t = "delivery_letter" then lf.deliveries ++ [id] else lf.deliveries := by
  unfold categorize
  by_cases h1 : t = "lease"
  · rw [if_pos h1]
    cases lf.baseLease <;> simp [h1]
  · rw [if_neg h1]
    by_cases h2 : t = "amendment"
    · simp [h2]
    · rw [if_neg h2]
      by_cases h3 : t = "rent_commencement"
      · simp [h3]
      · rw [if_neg h3]
        by_cases h4 : t = "delivery_letter"
        · simp [h4]
        · rw [if_neg h4, if_neg h4]

theorem categorize_baseLease_eq (lf : LeaseFile) (t id : String) (h : t ≠ "lease") :
    (categorize lf t id).baseLease = lf.baseLease := by
  unfold categorize
  rw [if_neg h]
  by_cases h2 : t = "amendment"
  · simp [h2]
  · rw [if_neg h2]
    by_cases h3 : t = "rent_commencement"
    · simp [h3]
    · rw [if_neg h3]
      by_cases h4 : t = "delivery_letter"
      · simp [h4]
      · rw [if_neg h4]

theorem categorize_others_eq (lf : LeaseFile) (t id : String) :
    (categorize lf t id).others
      = if t = "lease" then
          (match lf.baseLease with
           | none => lf.others
           | some _ => lf.others ++ [id])
        else if t = "amendment" ∨ t = "rent_commencement" ∨ t = "delivery_letter" then
          lf.others
        else lf.others ++ [id] := by
  unfold categorize
  by_cases h1 : t = "lease"
  · rw [if_pos h1, if_pos h1]
    cases lf.baseLease <;> simp
  · rw [if_neg h1, if_neg h1]
    by_cases h2 : t = "amendment"
    · simp [h2]
    · rw [if_neg h2]
      by_cases h3 : t = "rent_commencement"
      · simp [h3]
      · rw [if_neg h3]
        by_cases h4 : t = "delivery_letter"
        · simp [h4]
        · rw [if_neg h4]
          have : ¬(t = "amendment" ∨ t = "rent_commencement" ∨ t = "delivery_letter") := by
            push_neg
            exact ⟨h2, h3, h4⟩
          rw [if_neg this]

theorem categorize_fold_amendments (ds : List ProcessedDocument) (lf : LeaseFile) :
    (ds.foldl (fun lf d => categorize lf d.classification.documentType d.id) lf).amendments
      = lf.amendments
        ++ (ds.filter (fun d => d.classification.documentType == "amendment")).map (·.id) := by
  induction ds generalizing lf with
  | nil => simp
  | cons d rest ih =>
    simp only [List.foldl_cons, List.filter_cons]
    rw [ih, categorize_amendments_eq]
    by_cases h1 : d.classification.documentType = "amendment"
    · simp [h1]
    · simp [h1]

theorem categorize_fold_commencements (ds : List ProcessedDocument) (lf : LeaseFile) :
    (ds.foldl (fun lf d => categorize lf d.classification.documentType d.id) lf).commencements
      = lf.commencements
        ++ (ds.filter
            (fun d => d.classification.documentType == "rent_commencement")).map (·.id) := by
  induction ds generalizing lf with
  | nil => simp
  | cons d rest ih =>
    simp only [List.foldl_cons, List.filter_cons]
    rw [ih, categorize_commencements_eq]
    by_cases h1 : d.classification.documentType = "rent_commencement"
    · simp [h1]
    · simp [h1]

theorem categorize_fold_deliveries (ds : List ProcessedDocument) (lf : LeaseFile) :
    (ds.foldl (fun lf d => categorize lf d.classification.documentType d.id) lf).deliveries
      = lf.deliveries
        ++ (ds.filter
            (fun d => d.classification.documentType == "delivery_letter")).map (·.id) := by
  induction ds generalizing lf with
  | nil => simp
  | cons d rest ih =>
    simp only [List.foldl_cons, List.filter_cons]
    rw [ih, categorize_deliveries_eq]
    by_cases h1 : d.classification.documentType = "delivery_letter"
    · simp [h1]
    · simp [h1]

theorem categorize_fold_others (ds : List ProcessedDocument) (lf : LeaseFile) :
    (ds.foldl (fun lf d => categorize lf d.classification.documentType d.id) lf).others
      = lf.others ++ restOthers ds lf.baseLease.isSome := by
  induction ds generalizing lf with
  | nil => simp [restOthers]
  | cons d rest ih =>
    simp only [List.foldl_cons, restOthers]
    rw [ih, categorize_others_eq]
    by_cases h1 : d.classification.documentType = "lease"
    · rw [if_pos h1, if_pos h1]
      cases hb : lf.baseLease with
      | none =>
        have hbl : (categorize lf d.classification.documentType d.id).baseLease = some d.id := by
          unfold categorize
          rw [if_pos h1, hb]
        rw [hbl]
        simp
      | some b =>
        have hbl : (categorize lf d.classification.documentType d.id).baseLease = some b := by
          unfold categorize
          rw [if_pos h1, hb]
        rw [hbl]
        simp
    · rw [if_neg h1, if_neg h1]
      rw [categorize_baseLease_eq lf _ d.id h1]
      by_cases h2 : d.classification.documentType = "amendment"
          ∨ d.classification.documentType = "rent_commencement"
          ∨ d.classification.documentType = "delivery_letter"
      · rw [if_pos h2, if_pos h2]
      · rw [if_neg h2, if_neg h2]
        simp

/-- Well-formedness of a grouped output relative to the documents seen so
far: every group's lease file is the categorize-replay of its own document
list, and that list is a subsequence of the input. -/
def GroupsWF (g : GroupedOutput) (all : List ProcessedDocument) : Prop :=
  ∀ p ∈ g, ∀ q ∈ p.2, q.2.leaseFile = leaseFileOf q.2.documents ∧ q.2.documents.Sublist all

theorem GroupsWF_mono {g : GroupedOutput} {all more : List ProcessedDocument}
    (h : GroupsWF g all) : GroupsWF g (all ++ more) := by
  intro p hp q hq
  obtain ⟨h1, h2⟩ := h p hp q hq
  exact ⟨h1, h2.trans (List.sublist_append_left all more)⟩

theorem GroupsWF_insertDoc {g : GroupedOutput} {all : List ProcessedDocument}
    (doc : ProcessedDocument) (h : GroupsWF g all) :
    GroupsWF (insertDoc g doc) (all ++ [doc]) := by
  simp only [insertDoc]
  set ml := jsStringOr (findFuzzyMatch doc.extraction.lessor (g.map (·.1))) doc.extraction.lessor
  set g1 := ensureKey g ml ([] : AddressMap) with hg1
  obtain ⟨addrs0, hlk, hsrc⟩ := lookup_ensureKey g ml ([] : AddressMap)
  rw [← hg1] at hlk
  have haddrs : (alistLookup g1 ml).getD [] = addrs0 := by rw [hlk]; rfl
  rw [haddrs]
  set ma := jsStringOr (findFuzzyMatch doc.extraction.address (addrs0.map (·.1)))
    doc.extraction.address
  set addrs1 := ensureKey addrs0 ma emptyAddressGroup with ha1
  have haddrs0WF : ∀ q ∈ addrs0, q.2.leaseFile = leaseFileOf q.2.documents
      ∧ q.2.documents.Sublist all := by
    intro q hq
    rcases hsrc with hs | ⟨_, h0⟩
    · rcases lookup_mem hs with ⟨p0, hp0, hp02⟩
      exact h p0 hp0 q (by rw [hp02]; exact hq)
    · rw [h0] at hq
      simp at hq
  intro p hp q hq
  rcases mem_updateAt _ _ _ _ hp with hpin | ⟨a, hla, rfl⟩
  · rcases mem_ensureKey _ _ _ _ hpin with hpg | rfl
    · obtain ⟨w1, w2⟩ := h p hpg q hq
      exact ⟨w1, w2.trans (List.sublist_append_left all [doc])⟩
    · simp at hq
  · have ha' : addrs0 = a := by rw [hlk] at hla; exact Option.some_inj.mp hla
    subst ha'
    simp only at hq
    rcases mem_updateAt _ _ _ _ hq with hqin | ⟨b, hlb, rfl⟩
    · rcases mem_ensureKey _ _ _ _ hqin with hq0 | rfl
      · obtain ⟨w1, w2⟩ := haddrs0WF q hq0
        exact ⟨w1, w2.trans (List.sublist_append_left all [doc])⟩
      · refine ⟨rfl, ?_⟩
        simp [emptyAddressGroup]
    · have hbWF : b.leaseFile = leaseFileOf b.documents ∧ b.documents.Sublist all := by
        obtain ⟨b0, hb0l, hb0s⟩ := lookup_ensureKey addrs0 ma emptyAddressGroup
        rw [← ha1] at hb0l
        have hb' : b = b0 := by rw [hlb] at hb0l; exact Option.some_inj.mp hb0l
        subst hb'
        rcases hb0s with hbs | ⟨_, h0⟩
        · rcases lookup_mem hbs with ⟨q0, hq0, hq02⟩
          have := haddrs0WF q0 hq0
          rw [hq02] at this
          exact this
        · rw [h0]
          exact ⟨rfl, by simp [emptyAddressGroup]⟩
      constructor
      · show (addDocToGroup b doc).leaseFile = leaseFileOf (addDocToGroup b doc).documents
        simp only [addDocToGroup]
        rw [hbWF.1]
        unfold leaseFileOf
        rw [List.foldl_append]
        simp
      · show (addDocToGroup b doc).documents.Sublist (all ++ [doc])
        simp only [addDocToGroup]
        exact List.Sublist.append hbWF.2 (List.Sublist.refl [doc])

theorem foldl_groupStep_wf (docs : List ProcessedDocument)
    (acc : GroupedOutput × List ProcessedDocument) (all : List ProcessedDocument)
    (h : GroupsWF acc.1 all) :
    GroupsWF (docs.foldl groupStep acc).1 (all ++ docs) := by
  induction docs generalizing acc all with
  | nil => simpa using h
  | cons d rest ih =>
    simp only [List.foldl_cons]
    have step : GroupsWF (groupStep acc d).1 (all ++ [d]) := by
      unfold groupStep
      by_cases hu : d.extraction.lessor = "unknown" ∨ d.extraction.address = "unknown"
      · rw [if_pos hu]
        exact GroupsWF_mono h
      · rw [if_neg hu]
        exact GroupsWF_insertDoc d h
    have := ih (groupStep acc d) (all ++ [d]) step
    simpa using this

/-- C3: in every bundle of the final hierarchy, `baseLease` is the first
lease-typed document of the bundle in input order (none if there is none),
the dedicated lists collect amendment / rent_commencement / delivery_letter
documents one-to-one in input order, and `others` collects later lease-typed
documents and documents of any other type; the bundle's document list is a
subsequence of the input. -/
theorem c3_bundle_typing (documents : List ProcessedDocument) (lessor : String)
    (addrs : AddressMap) (address : String) (gr : AddressGroup)
    (h1 : (lessor, addrs) ∈ (groupDocuments documents).grouped)
    (h2 : (address, gr) ∈ addrs) :
    gr.documents.Sublist documents
    ∧ gr.leaseFile.baseLease
        = (gr.documents.find? (fun d => d.classification.documentType == "lease")).map (·.id)
    ∧ gr.leaseFile.amendments
        = (gr.documents.filter (fun d => d.classification.documentType == "amendment")).map (·.id)
    ∧ gr.leaseFile.commencements
        = (gr.documents.filter
            (fun d => d.classification.documentType == "rent_commencement")).map (·.id)
    ∧ gr.leaseFile.deliveries
        = (gr.documents.filter
            (fun d => d.classification.documentType == "delivery_letter")).map (·.id)
    ∧ gr.leaseFile.others = restOthers gr.documents false := by
  have hwf : GroupsWF (groupDocuments documents).grouped documents := by
    have := foldl_groupStep_wf documents ([], []) [] (by intro p hp; simp at hp)
    simpa [groupDocuments] using this
  obtain ⟨hlf, hsub⟩ := hwf (lessor, addrs) h1 (address, gr) h2
  refine ⟨hsub, ?_, ?_, ?_, ?_, ?_⟩
  · rw [hlf]
    exact categorize_fold_baseLease gr.documents emptyLeaseFile rfl
  · rw [hlf]
    have := categorize_fold_amendments gr.documents emptyLeaseFile
    simpa [emptyLeaseFile, leaseFileOf] using this
  · rw [hlf]
    have := categorize_fold_commencements gr.documents emptyLeaseFile
    simpa [emptyLeaseFile, leaseFileOf] using this
  · rw [hlf]
    have := categorize_fold_deliveries gr.documents emptyLeaseFile
    simpa [emptyLeaseFile, leaseFileOf] using this
  · rw [hlf]
    have := categorize_fold_others gr.documents emptyLeaseFile
    simpa [emptyLeaseFile, leaseFileOf] using this

theorem c2_unknown_ungrouped_witness :
    (([⟨"doc-1", "a", ⟨"lease", "high", "r"⟩, ⟨"Acme", "1 Main", "T", none⟩, "c1"⟩,
       ⟨"doc-2", "b", ⟨"amendment", "high", "r"⟩, ⟨"unknown", "2 Oak", "T", none⟩, "c2"⟩] :
       List ProcessedDocument).map (·.id)).Nodup
    ∧ ((⟨"doc-2", "b", ⟨"amendment", "high", "r"⟩, ⟨"unknown", "2 Oak", "T", none⟩, "c2"⟩ :
        ProcessedDocument)
        ∈ (groupDocuments
            [⟨"doc-1", "a", ⟨"lease", "high", "r"⟩, ⟨"Acme", "1 Main", "T", none⟩, "c1"⟩,
             ⟨"doc-2", "b", ⟨"amendment", "high", "r"⟩, ⟨"unknown", "2 Oak", "T", none⟩, "c2"⟩]).ungrouped
      ∧ "doc-2" ∉ hierarchyIds (groupDocuments
            [⟨"doc-1", "a", ⟨"lease", "high", "r"⟩, ⟨"Acme", "1 Main", "T", none⟩, "c1"⟩,
             ⟨"doc-2", "b", ⟨"amendment", "high", "r"⟩, ⟨"unknown", "2 Oak", "T", none⟩, "c2"⟩]).grouped) :=
  ⟨by decide,
   c2_unknown_ungrouped _ _ (by decide) (by decide) (by decide)⟩

theorem c3_bundle_typing_witness :
    (("Acme", [("1 Main", (⟨⟨some "doc-1", ["doc-2"], [], [], []⟩,
      [⟨"doc-1", "a", ⟨"lease", "high", "r"⟩, ⟨"Acme", "1 Main", "T", none⟩, "c1"⟩,
       ⟨"doc-2", "b", ⟨"amendment", "high", "r"⟩, ⟨"Acme", "1 Main", "T", none⟩, "c2"⟩]⟩ : AddressGroup))])
       ∈ (groupDocuments
      [⟨"doc-1", "a", ⟨"lease", "high", "r"⟩, ⟨"Acme", "1 Main", "T", none⟩, "c1"⟩,
       ⟨"doc-2", "b", ⟨"amendment", "high", "r"⟩, ⟨"Acme", "1 Main", "T", none⟩, "c2"⟩]).grouped)
    ∧ (((⟨⟨some "doc-1", ["doc-2"], [], [], []⟩,
      [⟨"doc-1", "a", ⟨"lease", "high", "r"⟩, ⟨"Acme", "1 Main", "T", none⟩, "c1"⟩,
       ⟨"doc-2", "b", ⟨"amendment", "high", "r"⟩, ⟨"Acme", "1 Main", "T", none⟩, "c2"⟩]⟩ : AddressGroup)).documents.Sublist
      [⟨"doc-1", "a", ⟨"lease", "high", "r"⟩, ⟨"Acme", "1 Main", "T", none⟩, "c1"⟩,
       ⟨"doc-2", "b", ⟨"amendment", "high", "r"⟩, ⟨"Acme", "1 Main", "T", none⟩, "c2"⟩]
      ∧ ((⟨⟨some "doc-1", ["doc-2"], [], [], []⟩,
      [⟨"doc-1", "a", ⟨"lease", "high", "r"⟩, ⟨"Acme", "1 Main", "T", none⟩, "c1"⟩,
       ⟨"doc-2", "b", ⟨"amendment", "high", "r"⟩, ⟨"Acme", "1 Main", "T", none⟩, "c2"⟩]⟩ : AddressGroup)).leaseFile.baseLease
          = ((((⟨⟨some "doc-1", ["doc-2"], [], [], []⟩,
      [⟨"doc-1", "a", ⟨"lease", "high", "r"⟩, ⟨"Acme", "1 Main", "T", none⟩, "c1"⟩,
       ⟨"doc-2", "b", ⟨"amendment", "high", "r"⟩, ⟨"Acme", "1 Main", "T", none⟩, "c2"⟩]⟩ : AddressGroup)).documents.find?
              (fun d => d.classification.documentType == "lease")).map (·.id))
      ∧ ((⟨⟨some "doc-1", ["doc-2"], [], [], []⟩,
      [⟨"doc-1", "a", ⟨"lease", "high", "r"⟩, ⟨"Acme", "1 Main", "T", none⟩, "c1"⟩,
       ⟨"doc-2", "b", ⟨"amendment", "high", "r"⟩, ⟨"Acme", "1 Main", "T", none⟩, "c2"⟩]⟩ : AddressGroup)).leaseFile.amendments
          = ((((⟨⟨some "doc-1", ["doc-2"], [], [], []⟩,
      [⟨"doc-1", "a", ⟨"lease", "high", "r"⟩, ⟨"Acme", "1 Main", "T", none⟩, "c1"⟩,
       ⟨"doc-2", "b", ⟨"amendment", "high", "r"⟩, ⟨"Acme", "1 Main", "T", none⟩, "c2"⟩]⟩ : AddressGroup)).documents.filter
              (fun d => d.classification.documentType == "amendment")).map (·.id))
      ∧ ((⟨⟨some "doc-1", ["doc-2"], [], [], []⟩,
      [⟨"doc-1", "a", ⟨"lease", "high", "r"⟩, ⟨"Acme", "1 Main", "T", none⟩, "c1"⟩,
       ⟨"doc-2", "b", ⟨"amendment", "high", "r"⟩, ⟨"Acme", "1 Main", "T", none⟩, "c2"⟩]⟩ : AddressGroup)).leaseFile.commencements
          = ((((⟨⟨some "doc-1", ["doc-2"], [], [], []⟩,
      [⟨"doc-1", "a", ⟨"lease", "high", "r"⟩, ⟨"Acme", "1 Main", "T", none⟩, "c1"⟩,
       ⟨"doc-2", "b", ⟨"amendment", "high", "r"⟩, ⟨"Acme", "1 Main", "T", none⟩, "c2"⟩]⟩ : AddressGroup)).documents.filter
              (fun d => d.classification.documentType == "rent_commencement")).map (·.id))
      ∧ ((⟨⟨some "doc-1", ["doc-2"], [], [], []⟩,
      [⟨"doc-1", "a", ⟨"lease", "high", "r"⟩, ⟨"Acme", "1 Main", "T", none⟩, "c1"⟩,
       ⟨"doc-2", "b", ⟨"amendment", "high", "r"⟩, ⟨"Acme", "1 Main", "T", none⟩, "c2"⟩]⟩ : AddressGroup)).leaseFile.deliveries
          = ((((⟨⟨some "doc-1", ["doc-2"], [], [], []⟩,
      [⟨"doc-1", "a", ⟨"lease", "high", "r"⟩, ⟨"Acme", "1 Main", "T", none⟩, "c1"⟩,
       ⟨"doc-2", "b", ⟨"amendment", "high", "r"⟩, ⟨"Acme", "1 Main", "T", none⟩, "c2"⟩]⟩ : AddressGroup)).documents.filter
              (fun d => d.classification.documentType == "delivery_letter")).map (·.id))
      ∧ ((⟨⟨some "doc-1", ["doc-2"], [], [], []⟩,
      [⟨"doc-1", "a", ⟨"lease", "high", "r"⟩, ⟨"Acme", "1 Main", "T", none⟩, "c1"⟩,
       ⟨"doc-2", "b", ⟨"amendment", "high", "r"⟩, ⟨"Acme", "1 Main", "T", none⟩, "c2"⟩]⟩ : AddressGroup)).leaseFile.others = restOthers ((⟨⟨some "doc-1", ["doc-2"], [], [], []⟩,
      [⟨"doc-1", "a", ⟨"lease", "high", "r"⟩, ⟨"Acme", "1 Main", "T", none⟩, "c1"⟩,
       ⟨"doc-2", "b", ⟨"amendment", "high", "r"⟩, ⟨"Acme", "1 Main", "T", none⟩, "c2"⟩]⟩ : AddressGroup)).documents false) :=
  ⟨by decide,
   c3_bundle_typing
      [⟨"doc-1", "a", ⟨"lease", "high", "r"⟩, ⟨"Acme", "1 Main", "T", none⟩, "c1"⟩,
       ⟨"doc-2", "b", ⟨"amendment", "high", "r"⟩, ⟨"Acme", "1 Main", "T", none⟩, "c2"⟩]
      "Acme"
      [("1 Main", (⟨⟨some "doc-1", ["doc-2"], [], [], []⟩,
      [⟨"doc-1", "a", ⟨"lease", "high", "r"⟩, ⟨"Acme", "1 Main", "T", none⟩, "c1"⟩,
       ⟨"doc-2", "b", ⟨"amendment", "high", "r"⟩, ⟨"Acme", "1 Main", "T", none⟩, "c2"⟩]⟩ : AddressGroup))]
      "1 Main"
      (⟨⟨some "doc-1", ["doc-2"], [], [], []⟩,
      [⟨"doc-1", "a", ⟨"lease", "high", "r"⟩, ⟨"Acme", "1 Main", "T", none⟩, "c1"⟩,
       ⟨"doc-2", "b", ⟨"amendment", "high", "r"⟩, ⟨"Acme", "1 Main", "T", none⟩, "c2"⟩]⟩ : AddressGroup)
      (by decide) (by decide)⟩

/-! ## Chunk splitter (`chunkedProcessor.ts`)

Content is modelled as `List Char`; positions are `Nat`.  JS `Math.max(e - s,
p)` on a possibly-negative difference agrees with `max (e ∸ s) p` because the
fallback `p` is taken in both readings whenever the difference is below `p`. -/

/-- `ChunkConfig` from `chunkedProcessor.ts`. -/
structure ChunkConfig where
  maxChunkSize : Nat
  sizeThreshold : Nat
  overlapSize : Nat
  maxExtractionChunks : Nat
deriving Repr, DecidableEq

/-- `DEFAULT_CONFIG`. -/
def DEFAULT_CONFIG : ChunkConfig :=
  { maxChunkSize := 50000, sizeThreshold := 100000, overlapSize := 500, maxExtractionChunks := 5 }

/-- `needsChunking`: content strictly longer than the threshold. -/
def needsChunking (content : List Char) (config : ChunkConfig) : Bool :=
  config.sizeThreshold < content.length

/-- JS `String.prototype.lastIndexOf`, searching downward from counter `n`:
largest index `j < n` at which `pat` occurs in `l`. -/
def lastIdxAux (l pat : List Char) : Nat → Option Nat
  | 0 => none
  | j + 1 => if (l.drop j).take pat.length = pat then some j else lastIdxAux l pat j

def lastIndexOf (l pat : List Char) : Option Nat :=
  lastIdxAux l pat l.length

/-- `searchLength = Math.min(200, Math.floor(maxChunkSize * 0.2))` (exact for
the integer sizes in play). -/
def searchLen (maxChunkSize : Nat) : Nat := min 200 (maxChunkSize / 5)

/-- The break-point selection inside the splitting loop, as an offset from
`searchStart`: paragraph break, then sentence end, then plain newline. -/
def breakOffset (region : List Char) : Option Nat :=
  match lastIndexOf region ['\n', '\n'] with
  | some j => some (j + 2)
  | none =>
    match lastIndexOf region ['.', ' '] with
    | some j => some (j + 2)
    | none =>
      match lastIndexOf region ['\n'] with
      | some j => some (j + 1)
      | none => none

/-- `searchStart = Math.max(endPosition - searchLength, position)`. -/
def chunkSearchStart (content : List Char) (cfg : ChunkConfig) (position : Nat) : Nat :=
  max (min (position + cfg.maxChunkSize) content.length - searchLen cfg.maxChunkSize) position

/-- `searchRegion = content.slice(searchStart, endPosition)`. -/
def chunkRegion (content : List Char) (cfg : ChunkConfig) (position : Nat) : List Char :=
  (content.drop (chunkSearchStart content cfg position)).take
    (min (position + cfg.maxChunkSize) content.length - chunkSearchStart content cfg position)

/-- End position of the chunk starting at `position`: the window capped at
`maxChunkSize`, moved back to the best break point when not at the end of
the content. -/
def chunkEnd (content : List Char) (cfg : ChunkConfig) (position : Nat) : Nat :=
  let e0 := min (position + cfg.maxChunkSize) content.length
  if e0 < content.length then
    match breakOffset (chunkRegion content cfg position) with
    | some off => chunkSearchStart content cfg position + off
    | none => e0
  else e0

/-- `position = nextPosition > position ? nextPosition : endPosition`. -/
def nextPos (content : List Char) (cfg : ChunkConfig) (position : Nat) : Nat :=
  let e := chunkEnd content cfg position
  let np := e - cfg.overlapSize
  if position < np then np else e

/-- The boundary pairs `(position, endPosition)` produced by the splitting
loop.  The loop itself is fuel-indexed because the source loop diverges for
`maxChunkSize = 0`; `maxChunkSize ≥ 1` makes any fuel of at least
`content.length - position` exact (see the progress and stability lemmas). -/
def boundsLoop (content : List Char) (cfg : ChunkConfig) : Nat → Nat → List (Nat × Nat)
  | 0, _ => []
  | fuel + 1, position =>
    if position < content.length then
      let e := chunkEnd content cfg position
      if content.length ≤ e then [(position, e)]
      else (position, e) :: boundsLoop content cfg fuel (nextPos content cfg position)
    else []

/-- The chunk texts pushed by the splitting loop. -/
def splitLoop (content : List Char) (cfg : ChunkConfig) : Nat → Nat → List (List Char)
  | 0, _ => []
  | fuel + 1, position =>
    if position < content.length then
      let e := chunkEnd content cfg position
      let chunk := (content.drop position).take (e - position)
      if content.length ≤ e then [chunk]
      else chunk :: splitLoop content cfg fuel (nextPos content cfg position)
    else []

/-- `splitIntoChunks` from `chunkedProcessor.ts`. -/
def splitIntoChunks (content : List Char) (cfg : ChunkConfig) : List (List Char) :=
  if content.length ≤ cfg.maxChunkSize then [content]
  else splitLoop content cfg content.length 0

/-- Boundary pairs of the full split. -/
def splitBoundaries (content : List Char) (cfg : ChunkConfig) : List (Nat × Nat) :=
  if content.length ≤ cfg.maxChunkSize then [(0, content.length)]
  else boundsLoop content cfg content.length 0

/-! ## Basic properties of the splitter -/

theorem lastIdxAux_some (l pat : List Char) (n j : Nat)
    (h : lastIdxAux l pat n = some j) :
    (l.drop j).take pat.length = pat ∧ j < n
      ∧ ∀ j', j < j' → j' < n → (l.drop j').take pat.length ≠ pat := by
  induction n with
  | zero => simp [lastIdxAux] at h
  | succ m ih =>
    unfold lastIdxAux at h
    by_cases hc : (l.drop m).take pat.length = pat
    · rw [if_pos hc] at h
      cases h
      exact ⟨hc, Nat.lt_succ_self _, fun j' h1 h2 => absurd (Nat.lt_of_lt_of_le h1 (Nat.le_of_lt_succ h2)) (Nat.lt_irrefl _)⟩
    · rw [if_neg hc] at h
      obtain ⟨ho, hlt, hmax⟩ := ih h
      refine ⟨ho, Nat.lt_succ_of_lt hlt, ?_⟩
      intro j' h1 h2
      rcases Nat.lt_succ_iff_lt_or_eq.mp h2 with h2' | rfl
      · exact hmax j' h1 h2'
      · exact hc

theorem lastIdxAux_none (l pat : List Char) (n : Nat)
    (h : lastIdxAux l pat n = none) :
    ∀ j, j < n → (l.drop j).take pat.length ≠ pat := by
  induction n with
  | zero => intro j hj; omega
  | succ m ih =>
    unfold lastIdxAux at h
    by_cases hc : (l.drop m).take pat.length = pat
    · rw [if_pos hc] at h; cases h
    · rw [if_neg hc] at h
      intro j hj
      rcases Nat.lt_succ_iff_lt_or_eq.mp hj with hj' | rfl
      · exact ih h j hj'
      · exact hc

theorem lastIdxAux_exists (l pat : List Char) (n j : Nat)
    (hocc : (l.drop j).take pat.length = pat) (hj : j < n) :
    ∃ j', lastIdxAux l pat n = some j' ∧ j ≤ j' := by
  induction n with
  | zero => omega
  | succ m ih =>
    unfold lastIdxAux
    by_cases hc : (l.drop m).take pat.length = pat
    · exact ⟨m, by rw [if_pos hc], Nat.le_of_lt_succ hj⟩
    · rw [if_neg hc]
      have hjm : j < m := by
        rcases Nat.lt_succ_iff_lt_or_eq.mp hj with h | rfl
        · exact h
        · exact absurd hocc hc
      exact ih hjm

/-- An occurrence of a nonempty pattern lies within the bounds of the list. -/
theorem occ_le (l pat : List Char) (j : Nat) (hne : pat ≠ [])
    (h : (l.drop j).take pat.length = pat) : j + pat.length ≤ l.length := by
  have hlen := congrArg List.length h
  rw [List.length_take, List.length_drop] at hlen
  have hk : pat.length ≠ 0 := by
    intro h0
    exact hne (List.eq_nil_of_length_eq_zero h0)
  omega

theorem breakOffset_bounds (region : List Char) (off : Nat)
    (h : breakOffset region = some off) : 1 ≤ off ∧ off ≤ region.length := by
  unfold breakOffset at h
  cases h1 : lastIndexOf region ['\n', '\n'] with
  | some j =>
    rw [h1] at h
    cases h
    obtain ⟨ho, _, _⟩ := lastIdxAux_some _ _ _ _ h1
    have := occ_le region ['\n', '\n'] j (by simp) ho
    simp at this
    omega
  | none =>
    rw [h1] at h
    cases h2 : lastIndexOf region ['.', ' '] with
    | some j =>
      rw [h2] at h
      cases h
      obtain ⟨ho, _, _⟩ := lastIdxAux_some _ _ _ _ h2
      have := occ_le region ['.', ' '] j (by simp) ho
      simp at this
      omega
    | none =>
      rw [h2] at h
      cases h3 : lastIndexOf region ['\n'] with
      | some j =>
        rw [h3] at h
        cases h
        obtain ⟨ho, _, _⟩ := lastIdxAux_some _ _ _ _ h3
        have := occ_le region ['\n'] j (by simp) ho
        simp at this
        omega
      | none => rw [h3] at h; cases h

theorem chunkRegion_length (content : List Char) (cfg : ChunkConfig) (p : Nat) :
    (chunkRegion content cfg p).length
      = min (p + cfg.maxChunkSize) content.length - chunkSearchStart content cfg p := by
  unfold chunkRegion
  rw [List.length_take, List.length_drop]
  unfold chunkSearchStart
  omega

theorem chunkEnd_le_len (content : List Char) (cfg : ChunkConfig) (p : Nat) :
    chunkEnd content cfg p ≤ content.length := by
  simp only [chunkEnd]
  by_cases h : min (p + cfg.maxChunkSize) content.length < content.length
  · rw [if_pos h]
    cases hb : breakOffset (chunkRegion content cfg p) with
    | some off =>
      dsimp only
      obtain ⟨h1, h2⟩ := breakOffset_bounds _ _ hb
      rw [chunkRegion_length] at h2
      unfold chunkSearchStart at h2 ⊢
      omega
    | none =>
      dsimp only
      omega
  · rw [if_neg h]
    omega

theorem chunkEnd_le_window (content : List Char) (cfg : ChunkConfig) (p : Nat) :
    chunkEnd content cfg p ≤ p + cfg.maxChunkSize := by
  simp only [chunkEnd]
  by_cases h : min (p + cfg.maxChunkSize) content.length < content.length
  · rw [if_pos h]
    cases hb : breakOffset (chunkRegion content cfg p) with
    | some off =>
      dsimp only
      obtain ⟨h1, h2⟩ := breakOffset_bounds _ _ hb
      rw [chunkRegion_length] at h2
      unfold chunkSearchStart at h2 ⊢
      omega
    | none =>
      dsimp only
      omega
  · rw [if_neg h]
    omega

theorem chunkEnd_gt (content : List Char) (cfg : ChunkConfig) (p : Nat)
    (hm : 1 ≤ cfg.maxChunkSize) (hp : p < content.length) :
    p < chunkEnd content cfg p := by
  simp only [chunkEnd]
  by_cases h : min (p + cfg.maxChunkSize) content.length < content.length
  · rw [if_pos h]
    cases hb : breakOffset (chunkRegion content cfg p) with
    | some off =>
      dsimp only
      obtain ⟨h1, _⟩ := breakOffset_bounds _ _ hb
      unfold chunkSearchStart
      omega
    | none =>
      dsimp only
      omega
  · rw [if_neg h]
    omega

theorem nextPos_gt (content : List Char) (cfg : ChunkConfig) (p : Nat)
    (hm : 1 ≤ cfg.maxChunkSize) (hp : p < content.length) :
    p < nextPos content cfg p := by
  unfold nextPos
  have := chunkEnd_gt content cfg p hm hp
  by_cases h : p < chunkEnd content cfg p - cfg.overlapSize
  · rw [if_pos h]; omega
  · rw [if_neg h]; omega

/-- Fuel stability: any fuel of at least `content.length - position` computes
the same boundary list (so the fuelled loop is exact for `maxChunkSize ≥ 1`). -/
theorem boundsLoop_stable (content : List Char) (cfg : ChunkConfig)
    (hm : 1 ≤ cfg.maxChunkSize) :
    ∀ d f₁ f₂ p, content.length - p ≤ d → d ≤ f₁ → d ≤ f₂ →
      boundsLoop content cfg f₁ p = boundsLoop content cfg f₂ p := by
  intro d
  induction d with
  | zero =>
    intro f₁ f₂ p h0 _ _
    have hp : content.length ≤ p := by omega
    cases f₁ with
    | zero =>
      cases f₂ with
      | zero => rfl
      | succ f₂' => simp [boundsLoop, Nat.not_lt_of_le hp]
    | succ f₁' =>
      cases f₂ with
      | zero => simp [boundsLoop, Nat.not_lt_of_le hp]
      | succ f₂' => simp [boundsLoop, Nat.not_lt_of_le hp]
  | succ d' ih =>
    intro f₁ f₂ p hd h1 h2
    by_cases hp : p < content.length
    · cases f₁ with
      | zero => omega
      | succ f₁' =>
        cases f₂ with
        | zero => omega
        | succ f₂' =>
          simp only [boundsLoop, if_pos hp]
          by_cases he : content.length ≤ chunkEnd content cfg p
          · rw [if_pos he, if_pos he]
          · rw [if_neg he, if_neg he]
            have hnext := nextPos_gt content cfg p hm hp
            have hle : content.length - nextPos content cfg p ≤ d' := by omega
            rw [ih f₁' f₂' (nextPos content cfg p) hle (by omega) (by omega)]
    · cases f₁ with
      | zero =>
        cases f₂ with
        | zero => rfl
        | succ f₂' => simp [boundsLoop, hp]
      | succ f₁' =>
        cases f₂ with
        | zero => simp [boundsLoop, hp]
        | succ f₂' => simp [boundsLoop, hp]

/-! ## Monotonicity of `chunkEnd` in the window position

Shifting the search window one character to the right can lower the chosen
break offset by at most one, so the chunk end never moves left as the start
position moves right.  This is the heart of the reconstruction invariant. -/

/-- Shifting the region right by one: an occurrence not at position 0
survives, one position earlier. -/
theorem occ_shift_left (region : List Char) (c : Char) (pat : List Char) (j : Nat)
    (hne : pat ≠ []) (hocc : (region.drop j).take pat.length = pat) (hj : 1 ≤ j) :
    ((region.drop 1 ++ [c]).drop (j - 1)).take pat.length = pat := by
  have hb := occ_le region pat j hne hocc
  have hk : 1 ≤ pat.length := by
    cases pat with
    | nil => exact absurd rfl hne
    | cons a t => simp
  have h1 : (region.drop 1 ++ [c]).drop (j - 1) = region.drop j ++ [c] := by
    rw [List.drop_append_of_le_length (by rw [List.length_drop]; omega)]
    rw [List.drop_drop]
    have hj1 : 1 + (j - 1) = j := by omega
    rw [hj1]
  rw [h1, List.take_append_of_le_length (by rw [List.length_drop]; omega)]
  exact hocc

/-- Shifting back: an occurrence in the shifted region that does not use the
appended character comes from an occurrence one position later. -/
theorem occ_shift_right (region : List Char) (c : Char) (pat : List Char) (j : Nat)
    (hne : pat ≠ []) (hocc : ((region.drop 1 ++ [c]).drop j).take pat.length = pat)
    (hbound : j + pat.length ≤ region.length - 1) :
    (region.drop (j + 1)).take pat.length = pat := by
  have hk : 1 ≤ pat.length := by
    cases pat with
    | nil => exact absurd rfl hne
    | cons a t => simp
  have h1 : (region.drop 1 ++ [c]).drop j = region.drop (j + 1) ++ [c] := by
    rw [List.drop_append_of_le_length (by rw [List.length_drop]; omega)]
    rw [List.drop_drop]
    rw [Nat.add_comm 1 j]
  rw [h1, List.take_append_of_le_length (by rw [List.length_drop]; omega)] at hocc
  exact hocc

/-- A pattern absent from the region occurs in the shifted region only flush
against its right end. -/
theorem newOcc_end (region : List Char) (c : Char) (pat : List Char) (j : Nat)
    (hne : pat ≠ []) (hr : 1 ≤ region.length)
    (hnone : lastIndexOf region pat = none)
    (hsome : lastIndexOf (region.drop 1 ++ [c]) pat = some j) :
    j + pat.length = region.length := by
  have hr' : (region.drop 1 ++ [c]).length = region.length := by
    simp only [List.length_append, List.length_drop, List.length_cons, List.length_nil]
    omega
  obtain ⟨hocc, hjlt, _⟩ := lastIdxAux_some _ _ _ _ hsome
  have hb := occ_le _ pat j hne hocc
  rw [hr'] at hb
  have hk : 1 ≤ pat.length := by
    cases pat with
    | nil => exact absurd rfl hne
    | cons a t => simp
  by_contra hne2
  have hbound : j + pat.length ≤ region.length - 1 := by omega
  have hocc2 := occ_shift_right region c pat j hne hocc hbound
  exact lastIdxAux_none region pat region.length hnone (j + 1) (by omega) hocc2

/-- A pattern occurring at a positive position keeps an occurrence (at
position one less or later) after the shift. -/
theorem transfer_occ (region : List Char) (c : Char) (pat : List Char) (q : Nat)
    (hne : pat ≠ []) (hsome : lastIndexOf region pat = some q) (hq : 1 ≤ q) :
    ∃ j, lastIndexOf (region.drop 1 ++ [c]) pat = some j ∧ q - 1 ≤ j := by
  obtain ⟨hocc, hqlt, _⟩ := lastIdxAux_some _ _ _ _ hsome
  have hocc' := occ_shift_left region c pat q hne hocc hq
  have hr' : (region.drop 1 ++ [c]).length = region.length := by
    simp only [List.length_append, List.length_drop, List.length_cons, List.length_nil]
    omega
  have hlt : q - 1 < (region.drop 1 ++ [c]).length := by omega
  exact lastIdxAux_exists _ pat _ (q - 1) hocc' (by rw [hr']; omega)

/-- The break offset with the raw-cut fallback at the region length. -/
def breakOffsetD (region : List Char) : Nat :=
  (breakOffset region).getD region.length

theorem breakOffsetD_ge_one (region : List Char) (hr : 1 ≤ region.length) :
    1 ≤ breakOffsetD region := by
  unfold breakOffsetD
  cases hb : breakOffset region with
  | some off => exact (breakOffset_bounds region off hb).1
  | none => simpa using hr

theorem breakOffsetD_eq_P (l : List Char) (j : Nat)
    (h : lastIndexOf l ['\n', '\n'] = some j) : breakOffsetD l = j + 2 := by
  simp [breakOffsetD, breakOffset, h]

theorem breakOffsetD_eq_S (l : List Char) (j : Nat)
    (hP : lastIndexOf l ['\n', '\n'] = none)
    (h : lastIndexOf l ['.', ' '] = some j) : breakOffsetD l = j + 2 := by
  simp [breakOffsetD, breakOffset, hP, h]

theorem breakOffsetD_eq_N (l : List Char) (j : Nat)
    (hP : lastIndexOf l ['\n', '\n'] = none)
    (hS : lastIndexOf l ['.', ' '] = none)
    (h : lastIndexOf l ['\n'] = some j) : breakOffsetD l = j + 1 := by
  simp [breakOffsetD, breakOffset, hP, hS, h]

theorem breakOffsetD_eq_raw (l : List Char)
    (hP : lastIndexOf l ['\n', '\n'] = none)
    (hS : lastIndexOf l ['.', ' '] = none)
    (hN : lastIndexOf l ['\n'] = none) : breakOffsetD l = l.length := by
  simp [breakOffsetD, breakOffset, hP, hS, hN]

/-- Shifting the search region right by one character lowers the selected
break offset by at most one. -/
theorem offset_step (region : List Char) (c : Char) (hr : 1 ≤ region.length) :
    breakOffsetD region ≤ breakOffsetD (region.drop 1 ++ [c]) + 1 := by
  have hr' : (region.drop 1 ++ [c]).length = region.length := by
    simp only [List.length_append, List.length_drop, List.length_cons, List.length_nil]
    omega
  cases hP : lastIndexOf region ['\n', '\n'] with
  | some q =>
    have eqL := breakOffsetD_eq_P region q hP
    obtain ⟨hoccP, hqlt, _⟩ := lastIdxAux_some _ _ _ _ hP
    have hqb := occ_le region ['\n', '\n'] q (by simp) hoccP
    by_cases hq : 1 ≤ q
    · obtain ⟨j, hj, hjge⟩ := transfer_occ region c ['\n', '\n'] q (by simp) hP hq
      have eqR := breakOffsetD_eq_P _ j hj
      omega
    · have hge := breakOffsetD_ge_one (region.drop 1 ++ [c]) (by omega)
      omega
  | none =>
    cases hS : lastIndexOf region ['.', ' '] with
    | some q =>
      have eqL := breakOffsetD_eq_S region q hP hS
      obtain ⟨hoccS, hqlt, _⟩ := lastIdxAux_some _ _ _ _ hS
      have hqb := occ_le region ['.', ' '] q (by simp) hoccS
      simp only [List.length_cons, List.length_nil] at hqb
      cases hP' : lastIndexOf (region.drop 1 ++ [c]) ['\n', '\n'] with
      | some jP =>
        have hend := newOcc_end region c ['\n', '\n'] jP (by simp) hr hP hP'
        simp only [List.length_cons, List.length_nil] at hend
        have eqR := breakOffsetD_eq_P _ jP hP'
        omega
      | none =>
        by_cases hq : 1 ≤ q
        · obtain ⟨j, hj, hjge⟩ := transfer_occ region c ['.', ' '] q (by simp) hS hq
          have eqR := breakOffsetD_eq_S _ j hP' hj
          omega
        · have hge := breakOffsetD_ge_one (region.drop 1 ++ [c]) (by omega)
          omega
    | none =>
      cases hN : lastIndexOf region ['\n'] with
      | some q =>
        have eqL := breakOffsetD_eq_N region q hP hS hN
        obtain ⟨hoccN, hqlt, _⟩ := lastIdxAux_some _ _ _ _ hN
        have hqb := occ_le region ['\n'] q (by simp) hoccN
        simp only [List.length_cons, List.length_nil] at hqb
        cases hP' : lastIndexOf (region.drop 1 ++ [c]) ['\n', '\n'] with
        | some jP =>
          have hend := newOcc_end region c ['\n', '\n'] jP (by simp) hr hP hP'
          simp only [List.length_cons, List.length_nil] at hend
          have eqR := breakOffsetD_eq_P _ jP hP'
          omega
        | none =>
          cases hS' : lastIndexOf (region.drop 1 ++ [c]) ['.', ' '] with
          | some jS =>
            have hend := newOcc_end region c ['.', ' '] jS (by simp) hr hS hS'
            simp only [List.length_cons, List.length_nil] at hend
            have eqR := breakOffsetD_eq_S _ jS hP' hS'
            omega
          | none =>
            by_cases hq : 1 ≤ q
            · obtain ⟨j, hj, hjge⟩ := transfer_occ region c ['\n'] q (by simp) hN hq
              have eqR := breakOffsetD_eq_N _ j hP' hS' hj
              omega
            · cases hN' : lastIndexOf (region.drop 1 ++ [c]) ['\n'] with
              | some jN =>
                have eqR := breakOffsetD_eq_N _ jN hP' hS' hN'
                omega
              | none =>
                have eqR := breakOffsetD_eq_raw _ hP' hS' hN'
                omega
      | none =>
        have eqL := breakOffsetD_eq_raw region hP hS hN
        cases hP' : lastIndexOf (region.drop 1 ++ [c]) ['\n', '\n'] with
        | some jP =>
          have hend := newOcc_end region c ['\n', '\n'] jP (by simp) hr hP hP'
          simp only [List.length_cons, List.length_nil] at hend
          have eqR := breakOffsetD_eq_P _ jP hP'
          omega
        | none =>
          cases hS' : lastIndexOf (region.drop 1 ++ [c]) ['.', ' '] with
          | some jS =>
            have hend := newOcc_end region c ['.', ' '] jS (by simp) hr hS hS'
            simp only [List.length_cons, List.length_nil] at hend
            have eqR := breakOffsetD_eq_S _ jS hP' hS'
            omega
          | none =>
            cases hN' : lastIndexOf (region.drop 1 ++ [c]) ['\n'] with
            | some jN =>
              have hend := newOcc_end region c ['\n'] jN (by simp) hr hN hN'
              simp only [List.length_cons, List.length_nil] at hend
              have eqR := breakOffsetD_eq_N _ jN hP' hS' hN'
              omega
            | none =>
              have eqR := breakOffsetD_eq_raw _ hP' hS' hN'
              omega

theorem take_succ_getD {α : Type} (l : List α) (n : Nat) (d : α) (h : n < l.length) :
    l.take (n + 1) = l.take n ++ [l.getD n d] := by
  rw [List.take_succ]
  congr 1
  rw [List.getD_eq_getElem?_getD]
  simp [List.getElem?_eq_getElem h]

theorem take_drop_shift {α : Type} (t : List α) (r : Nat) (d : α) (hr : 1 ≤ r)
    (hrt : r < t.length) :
    (t.drop 1).take r = (t.take r).drop 1 ++ [t.getD r d] := by
  have h1 : (t.take (r + 1)).drop 1 = (t.drop 1).take r := by
    rw [List.drop_take]
    congr 1
  rw [← h1, take_succ_getD t r d hrt,
    List.drop_append_of_le_length (by rw [List.length_take]; omega)]

/-- In the interior of the content, the chunk end is the search start plus
the break offset (with the raw cut as the fallback offset). -/
theorem chunkEnd_eq_offsetD (content : List Char) (cfg : ChunkConfig) (p : Nat)
    (h : p + cfg.maxChunkSize < content.length) :
    chunkEnd content cfg p
      = chunkSearchStart content cfg p + breakOffsetD (chunkRegion content cfg p) := by
  have hmin : min (p + cfg.maxChunkSize) content.length = p + cfg.maxChunkSize := by omega
  have hA : chunkSearchStart content cfg p ≤ p + cfg.maxChunkSize := by
    unfold chunkSearchStart
    omega
  simp only [chunkEnd]
  rw [if_pos (by omega)]
  unfold breakOffsetD
  cases hb : breakOffset (chunkRegion content cfg p) with
  | some off => rfl
  | none =>
    dsimp only [Option.getD_none]
    rw [chunkRegion_length]
    omega

/-- The region one position to the right is the old region shifted by one
character (interior windows only). -/
theorem chunkRegion_step (content : List Char) (cfg : ChunkConfig) (p : Nat)
    (h : p + 1 + cfg.maxChunkSize < content.length)
    (hr : 1 ≤ (chunkRegion content cfg p).length) :
    chunkRegion content cfg (p + 1)
      = (chunkRegion content cfg p).drop 1
        ++ [(content.drop (chunkSearchStart content cfg p)).getD
              (p + cfg.maxChunkSize - chunkSearchStart content cfg p) 'a'] := by
  have hmin : min (p + cfg.maxChunkSize) content.length = p + cfg.maxChunkSize := by omega
  have hmin' : min (p + 1 + cfg.maxChunkSize) content.length
      = p + 1 + cfg.maxChunkSize := by omega
  have hA' : chunkSearchStart content cfg (p + 1) = chunkSearchStart content cfg p + 1 := by
    unfold chunkSearchStart
    omega
  have hAle : chunkSearchStart content cfg p ≤ p + cfg.maxChunkSize := by
    unfold chunkSearchStart
    omega
  set A := chunkSearchStart content cfg p with hAdef
  set r := p + cfg.maxChunkSize - A with hrdef
  have hrlen : (chunkRegion content cfg p).length = r := by
    rw [chunkRegion_length, hmin]
  have hr1 : 1 ≤ r := by rw [hrlen] at hr; exact hr
  have hregion : chunkRegion content cfg p = (content.drop A).take r := by
    unfold chunkRegion
    rw [hmin]
  have hlen_t : r < (content.drop A).length := by
    rw [List.length_drop]
    omega
  have hshift := take_drop_shift (content.drop A) r 'a' hr1 hlen_t
  have hregion' : chunkRegion content cfg (p + 1) = ((content.drop A).drop 1).take r := by
    unfold chunkRegion
    rw [hA', hmin']
    have hidx : p + 1 + cfg.maxChunkSize - (A + 1) = r := by omega
    rw [hidx]
    have hdd : (content.drop A).drop 1 = content.drop (A + 1) := by
      rw [List.drop_drop]
    rw [← hdd]
  rw [hregion', hregion, hshift]

/-- One-step monotonicity of the chunk end. -/
theorem chunkEnd_succ (content : List Char) (cfg : ChunkConfig) (p : Nat) :
    chunkEnd content cfg p ≤ chunkEnd content cfg (p + 1) := by
  by_cases h1 : p + cfg.maxChunkSize < content.length
  · by_cases h2 : p + 1 + cfg.maxChunkSize < content.length
    · -- interior-to-interior step
      rw [chunkEnd_eq_offsetD content cfg p h1, chunkEnd_eq_offsetD content cfg (p + 1) h2]
      have hA' : chunkSearchStart content cfg (p + 1) = chunkSearchStart content cfg p + 1 := by
        unfold chunkSearchStart
        omega
      by_cases hr : 1 ≤ (chunkRegion content cfg p).length
      · have hstep := chunkRegion_step content cfg p h2 hr
        have := offset_step (chunkRegion content cfg p)
          ((content.drop (chunkSearchStart content cfg p)).getD
            (p + cfg.maxChunkSize - chunkSearchStart content cfg p) 'a') hr
        rw [← hstep] at this
        omega
      · -- empty region: no break points on either side
        have hr0 : (chunkRegion content cfg p).length = 0 := by omega
        have hr0' : (chunkRegion content cfg (p + 1)).length = 0 := by
          rw [chunkRegion_length] at hr0 ⊢
          unfold chunkSearchStart at hr0 ⊢
          omega
        have he : chunkRegion content cfg p = [] := List.eq_nil_of_length_eq_zero hr0
        have he' : chunkRegion content cfg (p + 1) = [] := List.eq_nil_of_length_eq_zero hr0'
        rw [he, he']
        have hnil : breakOffsetD ([] : List Char) = 0 := rfl
        rw [hnil]
        unfold chunkSearchStart
        omega
    · -- the next window reaches the end of the content
      have : chunkEnd content cfg (p + 1) = content.length := by
        simp only [chunkEnd]
        rw [if_neg (by omega)]
        omega
      rw [this]
      exact chunkEnd_le_len content cfg p
  · -- this window already reaches the end of the content
    have hp : chunkEnd content cfg p = content.length := by
      simp only [chunkEnd]
      rw [if_neg (by omega)]
      omega
    have hp' : chunkEnd content cfg (p + 1) = content.length := by
      simp only [chunkEnd]
      rw [if_neg (by omega)]
      omega
    omega

/-- Monotonicity of the chunk end in the window position. -/
theorem chunkEnd_mono (content : List Char) (cfg : ChunkConfig) (p q : Nat) (h : p ≤ q) :
    chunkEnd content cfg p ≤ chunkEnd content cfg q := by
  induction q with
  | zero =>
    have : p = 0 := by omega
    rw [this]
  | succ q' ih =>
    rcases Nat.lt_succ_iff_lt_or_eq.mp (Nat.lt_succ_of_le h) with h' | rfl
    · exact le_trans (ih (by omega)) (chunkEnd_succ content cfg q')
    · rfl

/-! ## Structure of the boundary list and the coverage invariant -/

theorem splitLoop_eq_map (content : List Char) (cfg : ChunkConfig) :
    ∀ fuel p, splitLoop content cfg fuel p
      = (boundsLoop content cfg fuel p).map (fun b => (content.drop b.1).take (b.2 - b.1)) := by
  intro fuel
  induction fuel with
  | zero => intro p; rfl
  | succ f ih =>
    intro p
    simp only [splitLoop, boundsLoop]
    by_cases hp : p < content.length
    · rw [if_pos hp, if_pos hp]
      by_cases he : content.length ≤ chunkEnd content cfg p
      · rw [if_pos he, if_pos he]
        rfl
      · rw [if_neg he, if_neg he]
        simp only [List.map_cons]
        rw [ih]
    · rw [if_neg hp, if_neg hp]
      rfl

theorem nextPos_le_chunkEnd (content : List Char) (cfg : ChunkConfig) (p : Nat) :
    nextPos content cfg p ≤ chunkEnd content cfg p := by
  unfold nextPos
  by_cases h : p < chunkEnd content cfg p - cfg.overlapSize
  · rw [if_pos h]; omega
  · rw [if_neg h]

theorem boundsLoop_ne_nil (content : List Char) (cfg : ChunkConfig) (fuel p : Nat)
    (hp : p < content.length) (hf : 0 < fuel) :
    boundsLoop content cfg fuel p ≠ [] := by
  cases fuel with
  | zero => omega
  | succ f =>
    simp only [boundsLoop, if_pos hp]
    by_cases he : content.length ≤ chunkEnd content cfg p
    · rw [if_pos he]; simp
    · rw [if_neg he]; simp

theorem boundsLoop_head (content : List Char) (cfg : ChunkConfig) (fuel p : Nat)
    (hp : p < content.length) (hf : 0 < fuel) :
    (boundsLoop content cfg fuel p).head? = some (p, chunkEnd content cfg p) := by
  cases fuel with
  | zero => omega
  | succ f =>
    simp only [boundsLoop, if_pos hp]
    by_cases he : content.length ≤ chunkEnd content cfg p
    · rw [if_pos he]; rfl
    · rw [if_neg he]; rfl

theorem boundsLoop_elem (content : List Char) (cfg : ChunkConfig)
    (hm : 1 ≤ cfg.maxChunkSize) :
    ∀ fuel p b, b ∈ boundsLoop content cfg fuel p →
      p ≤ b.1 ∧ b.1 < content.length ∧ b.1 < b.2 ∧ b.2 ≤ b.1 + cfg.maxChunkSize
        ∧ b.2 ≤ content.length := by
  intro fuel
  induction fuel with
  | zero => intro p b hb; simp [boundsLoop] at hb
  | succ f ih =>
    intro p b hb
    simp only [boundsLoop] at hb
    by_cases hp : p < content.length
    · rw [if_pos hp] at hb
      by_cases he : content.length ≤ chunkEnd content cfg p
      · rw [if_pos he] at hb
        simp at hb
        rw [hb]
        have h1 := chunkEnd_gt content cfg p hm hp
        have h2 := chunkEnd_le_window content cfg p
        have h3 := chunkEnd_le_len content cfg p
        exact ⟨le_refl _, hp, h1, h2, h3⟩
      · rw [if_neg he] at hb
        rcases List.mem_cons.mp hb with rfl | hb'
        · have h1 := chunkEnd_gt content cfg p hm hp
          have h2 := chunkEnd_le_window content cfg p
          have h3 := chunkEnd_le_len content cfg p
          exact ⟨le_refl _, hp, h1, h2, h3⟩
        · obtain ⟨w1, w2, w3, w4, w5⟩ := ih (nextPos content cfg p) b hb'
          have := nextPos_gt content cfg p hm hp
          exact ⟨by omega, w2, w3, w4, w5⟩
    · rw [if_neg hp] at hb
      simp at hb

theorem boundsLoop_last (content : List Char) (cfg : ChunkConfig)
    (hm : 1 ≤ cfg.maxChunkSize) :
    ∀ fuel p, content.length - p ≤ fuel → p < content.length →
      ((boundsLoop content cfg fuel p).getLast?).map (fun b => b.2)
        = some content.length := by
  intro fuel
  induction fuel with
  | zero => intro p h1 h2; omega
  | succ f ih =>
    intro p h1 h2
    simp only [boundsLoop, if_pos h2]
    by_cases he : content.length ≤ chunkEnd content cfg p
    · rw [if_pos he]
      have := chunkEnd_le_len content cfg p
      have heq : chunkEnd content cfg p = content.length := by omega
      simp [heq]
    · rw [if_neg he]
      have hnp := nextPos_gt content cfg p hm h2
      have hnplt : nextPos content cfg p < content.length := by
        have := nextPos_le_chunkEnd content cfg p
        omega
      have hrest := ih (nextPos content cfg p) (by omega) hnplt
      obtain ⟨b0, rest', hcons⟩ :=
        List.exists_cons_of_ne_nil
          (boundsLoop_ne_nil content cfg f (nextPos content cfg p) hnplt (by omega))
      rw [hcons] at hrest ⊢
      rw [List.getLast?_cons_cons]
      exact hrest

theorem boundsLoop_chain (content : List Char) (cfg : ChunkConfig)
    (hm : 1 ≤ cfg.maxChunkSize) :
    ∀ fuel p, List.Chain' (fun a b : Nat × Nat => b.1 ≤ a.2 ∧ a.2 ≤ b.2)
      (boundsLoop content cfg fuel p) := by
  intro fuel
  induction fuel with
  | zero => intro p; simp [boundsLoop]
  | succ f ih =>
    intro p
    simp only [boundsLoop]
    by_cases hp : p < content.length
    · rw [if_pos hp]
      by_cases he : content.length ≤ chunkEnd content cfg p
      · rw [if_pos he]; simp
      · rw [if_neg he]
        apply List.Chain'.cons'
        · exact ih (nextPos content cfg p)
        · intro y hy
          have hnplt : nextPos content cfg p < content.length := by
            have := nextPos_le_chunkEnd content cfg p
            omega
          cases f with
          | zero => simp [boundsLoop] at hy
          | succ f' =>
            rw [boundsLoop_head content cfg (f' + 1) (nextPos content cfg p) hnplt (by omega)] at hy
            cases hy
            constructor
            · exact nextPos_le_chunkEnd content cfg p
            · have hple : p ≤ nextPos content cfg p :=
                le_of_lt (nextPos_gt content cfg p hm hp)
              exact chunkEnd_mono content cfg p (nextPos content cfg p) hple
    · rw [if_neg hp]
      simp

/-- Reassembly of chunk boundaries: each chunk after the first is stripped of
its declared overlap (the part before the previous chunk's end). -/
def reassembleFrom (content : List Char) (prevEnd : Nat) : List (Nat × Nat) → List Char
  | [] => []
  | b :: rest =>
    ((content.drop b.1).take (b.2 - b.1)).drop (prevEnd - b.1)
      ++ reassembleFrom content b.2 rest

theorem slice_drop_overlap (content : List Char) (p e prevEnd : Nat) (hp : p ≤ prevEnd) :
    ((content.drop p).take (e - p)).drop (prevEnd - p)
      = (content.drop prevEnd).take (e - prevEnd) := by
  rw [List.drop_take, List.drop_drop]
  have h1 : p + (prevEnd - p) = prevEnd := by omega
  have h2 : e - p - (prevEnd - p) = e - prevEnd := by omega
  rw [h1, h2]

theorem slice_append_drop (content : List Char) (prevEnd e : Nat) (h1 : prevEnd ≤ e) :
    (content.drop prevEnd).take (e - prevEnd) ++ content.drop e = content.drop prevEnd := by
  have h2 : content.drop e = (content.drop prevEnd).drop (e - prevEnd) := by
    rw [List.drop_drop]
    congr 1
    omega
  rw [h2, List.take_append_drop]

theorem reassemble_boundsLoop (content : List Char) (cfg : ChunkConfig)
    (hm : 1 ≤ cfg.maxChunkSize) :
    ∀ fuel p prevEnd, content.length - p ≤ fuel → p < content.length →
      p ≤ prevEnd → prevEnd ≤ chunkEnd content cfg p →
      reassembleFrom content prevEnd (boundsLoop content cfg fuel p)
        = content.drop prevEnd := by
  intro fuel
  induction fuel with
  | zero => intro p prevEnd h1 h2; omega
  | succ f ih =>
    intro p prevEnd h1 h2 h3 h4
    simp only [boundsLoop, if_pos h2]
    by_cases he : content.length ≤ chunkEnd content cfg p
    · rw [if_pos he]
      have hlen := chunkEnd_le_len content cfg p
      have heq : chunkEnd content cfg p = content.length := by omega
      unfold reassembleFrom
      rw [slice_drop_overlap content p _ prevEnd h3]
      simp only [reassembleFrom, List.append_nil]
      rw [heq]
      have : (content.drop prevEnd).length = content.length - prevEnd := by
        rw [List.length_drop]
      rw [← this, List.take_length]
    · rw [if_neg he]
      unfold reassembleFrom
      rw [slice_drop_overlap content p _ prevEnd h3]
      have hnp := nextPos_gt content cfg p hm h2
      have hnple := nextPos_le_chunkEnd content cfg p
      have hnplt : nextPos content cfg p < content.length := by omega
      have hmono := chunkEnd_mono content cfg p (nextPos content cfg p) (by omega)
      rw [ih (nextPos content cfg p) (chunkEnd content cfg p) (by omega) hnplt hnple hmono]
      exact slice_append_drop content prevEnd (chunkEnd content cfg p) h4

/-- C4 (amended: `maxChunkSize ≥ 1`): the chunks are the contiguous slices of
the boundary list, which starts at offset 0, ends at the content length,
has each next start at or before the previous end, and reassembles to the
original content once each later chunk drops its declared overlap; a content
that fits in one chunk is returned whole. -/
theorem c4_split_coverage (content : List Char) (cfg : ChunkConfig)
    (hm : 1 ≤ cfg.maxChunkSize) :
    splitIntoChunks content cfg
        = (splitBoundaries content cfg).map (fun b => (content.drop b.1).take (b.2 - b.1))
    ∧ splitBoundaries content cfg ≠ []
    ∧ (splitBoundaries content cfg).head?.map (fun b => b.1) = some 0
    ∧ ((splitBoundaries content cfg).getLast?).map (fun b => b.2) = some content.length
    ∧ List.Chain' (fun a b => b.1 ≤ a.2) (splitBoundaries content cfg)
    ∧ reassembleFrom content 0 (splitBoundaries content cfg) = content
    ∧ (content.length ≤ cfg.maxChunkSize → splitIntoChunks content cfg = [content]) := by
  by_cases hsmall : content.length ≤ cfg.maxChunkSize
  · unfold splitIntoChunks splitBoundaries
    rw [if_pos hsmall, if_pos hsmall]
    refine ⟨by simp, by simp, by simp, by simp, by simp, ?_, fun _ => rfl⟩
    unfold reassembleFrom
    simp [reassembleFrom]
  · have hlen : cfg.maxChunkSize < content.length := by omega
    have h0 : 0 < content.length := by omega
    unfold splitIntoChunks splitBoundaries
    rw [if_neg hsmall, if_neg hsmall]
    refine ⟨splitLoop_eq_map content cfg content.length 0,
      boundsLoop_ne_nil content cfg content.length 0 h0 (by omega), ?_, ?_, ?_, ?_, ?_⟩
    · rw [boundsLoop_head content cfg content.length 0 h0 (by omega)]
      rfl
    · exact boundsLoop_last content cfg hm content.length 0 (by omega) h0
    · exact List.Chain'.imp (fun a b h => h.1) (boundsLoop_chain content cfg hm content.length 0)
    · rw [reassemble_boundsLoop content cfg hm content.length 0 0 (by omega) h0
        (le_refl 0) (by omega)]
      exact List.drop_zero content
    · intro hcontra
      omega

theorem c4_split_coverage_cex :
    splitIntoChunks ['a', 'b']
        { maxChunkSize := 0, sizeThreshold := 0, overlapSize := 0, maxExtractionChunks := 5 }
      = [[], []]
    ∧ reassembleFrom ['a', 'b'] 0
        (splitBoundaries ['a', 'b']
          { maxChunkSize := 0, sizeThreshold := 0, overlapSize := 0, maxExtractionChunks := 5 })
      ≠ ['a', 'b']
    ∧ ((splitBoundaries ['a', 'b']
          { maxChunkSize := 0, sizeThreshold := 0, overlapSize := 0,
            maxExtractionChunks := 5 }).getLast?).map (fun b => b.2) ≠ some 2 := by
  decide

theorem c4_split_coverage_witness :
    1 ≤ ({ maxChunkSize := 3, sizeThreshold := 0, overlapSize := 1,
            maxExtractionChunks := 5 } : ChunkConfig).maxChunkSize
    ∧ reassembleFrom (List.replicate 10 'a') 0
        (splitBoundaries (List.replicate 10 'a')
          { maxChunkSize := 3, sizeThreshold := 0, overlapSize := 1, maxExtractionChunks := 5 })
      = List.replicate 10 'a' :=
  ⟨by decide,
   (c4_split_coverage (List.replicate 10 'a')
      { maxChunkSize := 3, sizeThreshold := 0, overlapSize := 1, maxExtractionChunks := 5 }
      (by decide)).2.2.2.2.2.1⟩

/-- C8 (amended: `maxChunkSize ≥ 1`): from any position strictly inside the
content the next window start is strictly greater (and never beyond the
current chunk end), so the splitting loop makes forward progress; its result
is independent of the fuel once the fuel covers the remaining length, i.e.
the loop terminates. -/
theorem c8_progress_termination (content : List Char) (cfg : ChunkConfig) (p f₁ f₂ : Nat)
    (hm : 1 ≤ cfg.maxChunkSize) (hp : p < content.length)
    (h₁ : content.length - p ≤ f₁) (h₂ : content.length - p ≤ f₂) :
    p < nextPos content cfg p
    ∧ nextPos content cfg p ≤ chunkEnd content cfg p
    ∧ splitLoop content cfg f₁ p = splitLoop content cfg f₂ p := by
  refine ⟨nextPos_gt content cfg p hm hp, nextPos_le_chunkEnd content cfg p, ?_⟩
  rw [splitLoop_eq_map, splitLoop_eq_map]
  rw [boundsLoop_stable content cfg hm (content.length - p) f₁ f₂ p (le_refl _) h₁ h₂]

theorem c8_progress_termination_cex :
    nextPos ['a', 'b']
        { maxChunkSize := 0, sizeThreshold := 0, overlapSize := 0, maxExtractionChunks := 5 } 0
      = 0
    ∧ splitLoop ['a', 'b']
        { maxChunkSize := 0, sizeThreshold := 0, overlapSize := 0, maxExtractionChunks := 5 } 2 0
      ≠ splitLoop ['a', 'b']
        { maxChunkSize := 0, sizeThreshold := 0, overlapSize := 0, maxExtractionChunks := 5 } 3 0 := by
  decide

theorem c8_progress_termination_witness :
    (1 ≤ ({ maxChunkSize := 1, sizeThreshold := 0, overlapSize := 5,
             maxExtractionChunks := 5 } : ChunkConfig).maxChunkSize
      ∧ 0 < (['a', 'b', 'c'] : List Char).length
      ∧ (['a', 'b', 'c'] : List Char).length - 0 ≤ 3
      ∧ (['a', 'b', 'c'] : List Char).length - 0 ≤ 5)
    ∧ (0 < nextPos ['a', 'b', 'c']
          { maxChunkSize := 1, sizeThreshold := 0, overlapSize := 5, maxExtractionChunks := 5 } 0
      ∧ nextPos ['a', 'b', 'c']
          { maxChunkSize := 1, sizeThreshold := 0, overlapSize := 5, maxExtractionChunks := 5 } 0
        ≤ chunkEnd ['a', 'b', 'c']
          { maxChunkSize := 1, sizeThreshold := 0, overlapSize := 5, maxExtractionChunks := 5 } 0
      ∧ splitLoop ['a', 'b', 'c']
          { maxChunkSize := 1, sizeThreshold := 0, overlapSize := 5, maxExtractionChunks := 5 } 3 0
        = splitLoop ['a', 'b', 'c']
          { maxChunkSize := 1, sizeThreshold := 0, overlapSize := 5, maxExtractionChunks := 5 } 5 0) :=
  ⟨by decide,
   c8_progress_termination ['a', 'b', 'c']
      { maxChunkSize := 1, sizeThreshold := 0, overlapSize := 5, maxExtractionChunks := 5 }
      0 3 5 (by decide) (by decide) (by decide) (by decide)⟩

/-- C10 (amended: non-empty content): with `maxChunkSize ≥ 1` every returned
chunk is non-empty and no longer than `maxChunkSize`. -/
theorem c10_chunk_bounds (content : List Char) (cfg : ChunkConfig)
    (hm : 1 ≤ cfg.maxChunkSize) (hne : content ≠ []) :
    ∀ chunk ∈ splitIntoChunks content cfg,
      chunk ≠ [] ∧ chunk.length ≤ cfg.maxChunkSize := by
  intro chunk hchunk
  unfold splitIntoChunks at hchunk
  by_cases hsmall : content.length ≤ cfg.maxChunkSize
  · rw [if_pos hsmall] at hchunk
    simp at hchunk
    rw [hchunk]
    exact ⟨hne, hsmall⟩
  · rw [if_neg hsmall] at hchunk
    rw [splitLoop_eq_map] at hchunk
    rcases List.mem_map.mp hchunk with ⟨b, hb, rfl⟩
    obtain ⟨w1, w2, w3, w4, w5⟩ := boundsLoop_elem content cfg hm content.length 0 b hb
    have hlen : ((content.drop b.1).take (b.2 - b.1)).length = b.2 - b.1 := by
      rw [List.length_take, List.length_drop]
      omega
    constructor
    · intro hnil
      rw [hnil] at hlen
      simp at hlen
      omega
    · rw [hlen]
      omega

theorem c10_chunk_bounds_cex :
    splitIntoChunks [] DEFAULT_CONFIG = [[]] ∧ 1 ≤ DEFAULT_CONFIG.maxChunkSize := by
  constructor
  · rfl
  · decide

theorem c10_chunk_bounds_witness :
    (1 ≤ ({ maxChunkSize := 3, sizeThreshold := 0, overlapSize := 1,
             maxExtractionChunks := 5 } : ChunkConfig).maxChunkSize
      ∧ List.replicate 10 'a' ≠ ([] : List Char))
    ∧ ((['a', 'a', 'a'] : List Char) ≠ []
      ∧ (['a', 'a', 'a'] : List Char).length
        ≤ ({ maxChunkSize := 3, sizeThreshold := 0, overlapSize := 1,
              maxExtractionChunks := 5 } : ChunkConfig).maxChunkSize) :=
  ⟨⟨by decide, by decide⟩,
   c10_chunk_bounds (List.replicate 10 'a')
      { maxChunkSize := 3, sizeThreshold := 0, overlapSize := 1, maxExtractionChunks := 5 }
      (by decide) (by decide) ['a', 'a', 'a'] (by decide)⟩

/-! ## Extraction merger (`mergeExtractionResults`) -/

/-- JS truthiness of an optional string: `undefined` and `""` are falsy. -/
def jsTruthy (o : Option String) : Bool :=
  match o with
  | none => false
  | some s => s != ""

/-- The all-`"unknown"` initial accumulator of the merge loop. -/
def emptyExtraction : ExtractionResult :=
  { lessor := "unknown", address := "unknown", tenant := "unknown", baseReference := none }

/-- One iteration of the merge loop body: first non-empty non-sentinel value
per scalar field, first truthy reference value. -/
def mergeStep (merged result : ExtractionResult) : ExtractionResult :=
  let m1 := if merged.lessor = "unknown" ∧ result.lessor ≠ "" ∧ result.lessor ≠ "unknown"
    then { merged with lessor := result.lessor } else merged
  let m2 := if m1.address = "unknown" ∧ result.address ≠ "" ∧ result.address ≠ "unknown"
    then { m1 with address := result.address } else m1
  let m3 := if m2.tenant = "unknown" ∧ result.tenant ≠ "" ∧ result.tenant ≠ "unknown"
    then { m2 with tenant := result.tenant } else m2
  if jsTruthy m3.baseReference = false ∧ jsTruthy result.baseReference = true
    then { m3 with baseReference := result.baseReference } else m3

/-- The loop's early-exit test: all three scalar fields resolved. -/
def isFullyResolved (m : ExtractionResult) : Bool :=
  m.lessor != "unknown" && m.address != "unknown" && m.tenant != "unknown"

def mergeLoop (merged : ExtractionResult) : List ExtractionResult → ExtractionResult
  | [] => merged
  | r :: rest =>
    let m := mergeStep merged r
    if isFullyResolved m then m else mergeLoop m rest

/-- `mergeExtractionResults` from `chunkedProcessor.ts`. -/
def mergeExtractionResults (results : List ExtractionResult) : ExtractionResult :=
  mergeLoop emptyExtraction results

theorem mergeLoop_append_of_resolved (xs : List ExtractionResult) :
    ∀ merged, isFullyResolved (mergeLoop merged xs) = true →
      isFullyResolved merged = false →
      ∀ ys, mergeLoop merged (xs ++ ys) = mergeLoop merged xs := by
  induction xs with
  | nil =>
    intro merged h1 h2 ys
    simp [mergeLoop] at h1
    rw [h1] at h2
    cases h2
  | cons x rest ih =>
    intro merged h1 h2 ys
    simp only [mergeLoop, List.cons_append] at h1 ⊢
    by_cases hres : isFullyResolved (mergeStep merged x) = true
    · rw [if_pos hres] at h1 ⊢
      rw [if_pos hres]
    · rw [if_neg hres] at h1 ⊢
      rw [if_neg hres]
      exact ih (mergeStep merged x) h1 (by simpa using hres) ys

/-- C6: once the merge of a prefix is fully resolved, appending further
results (even ones that would supply a still-missing `baseReference`) does
not change the output. -/
theorem c6_merge_shortcircuit (r s : List ExtractionResult)
    (h : (mergeExtractionResults r).lessor ≠ "unknown"
      ∧ (mergeExtractionResults r).address ≠ "unknown"
      ∧ (mergeExtractionResults r).tenant ≠ "unknown") :
    mergeExtractionResults (r ++ s) = mergeExtractionResults r := by
  unfold mergeExtractionResults at *
  apply mergeLoop_append_of_resolved r emptyExtraction _ (by decide) s
  simp only [isFullyResolved, Bool.and_eq_true, bne_iff_ne]
  exact ⟨⟨h.1, h.2.1⟩, h.2.2⟩

theorem c6_merge_shortcircuit_witness :
    ((mergeExtractionResults [⟨"a", "b", "c", none⟩]).lessor ≠ "unknown"
      ∧ (mergeExtractionResults [⟨"a", "b", "c", none⟩]).address ≠ "unknown"
      ∧ (mergeExtractionResults [⟨"a", "b", "c", none⟩]).tenant ≠ "unknown")
    ∧ mergeExtractionResults
        ([⟨"a", "b", "c", none⟩] ++ [⟨"x", "y", "z", some "lease-1"⟩])
      = mergeExtractionResults [⟨"a", "b", "c", none⟩] :=
  ⟨by decide,
   c6_merge_shortcircuit [⟨"a", "b", "c", none⟩] [⟨"x", "y", "z", some "lease-1"⟩] (by decide)⟩

/-! ## Chunked processor (`processDocumentChunked`)

The external classification and extraction capabilities are oracle
parameters; `chunksProcessed` equals the number of extraction calls. -/

/-- `ChunkingInfo` from `chunkedProcessor.ts`. -/
structure ChunkingInfo where
  wasChunked : Bool
  totalChunks : Nat
  chunksProcessed : Nat
  originalSize : Nat
deriving Repr, DecidableEq

/-- `ChunkedProcessingResult` from `chunkedProcessor.ts`. -/
structure ChunkedProcessingResult where
  classification : ClassificationResult
  extraction : ExtractionResult
  chunkingInfo : ChunkingInfo
deriving Repr, DecidableEq

/-- The extraction loop: extract chunk by chunk, stopping as soon as the
running merge resolves all required fields. -/
def extractLoopAux (extract : List Char → ExtractionResult)
    (acc : List ExtractionResult) : List (List Char) → List ExtractionResult
  | [] => acc
  | c :: rest =>
    let acc' := acc ++ [extract c]
    if isFullyResolved (mergeExtractionResults acc') then acc'
    else extractLoopAux extract acc' rest

/-- `processDocumentChunked` from `chunkedProcessor.ts` (the small-document
branch computes classification and extraction over the full text; the
chunked branch classifies chunk 0 only and merges per-chunk extractions). -/
def processDocumentChunked (classify : List Char → ClassificationResult)
    (extract : List Char → ExtractionResult) (content : List Char)
    (cfg : ChunkConfig) : ChunkedProcessingResult :=
  if needsChunking content cfg then
    let chunks := splitIntoChunks content cfg
    let results := extractLoopAux extract [] (chunks.take cfg.maxExtractionChunks)
    { classification := classify (chunks.headD [])
      extraction := mergeExtractionResults results
      chunkingInfo :=
        { wasChunked := true
          totalChunks := chunks.length
          chunksProcessed := results.length
          originalSize := content.length } }
  else
    { classification := classify content
      extraction := extract content
      chunkingInfo :=
        { wasChunked := false, totalChunks := 1, chunksProcessed := 1,
          originalSize := content.length } }

theorem extractLoopAux_length (extract : List Char → ExtractionResult)
    (l : List (List Char)) :
    ∀ acc, (extractLoopAux extract acc l).length ≤ acc.length + l.length := by
  induction l with
  | nil => intro acc; simp [extractLoopAux]
  | cons c rest ih =>
    intro acc
    simp only [extractLoopAux]
    by_cases h : isFullyResolved (mergeExtractionResults (acc ++ [extract c])) = true
    · rw [if_pos h]
      simp
    · rw [if_neg h]
      have := ih (acc ++ [extract c])
      simp at this ⊢
      omega

theorem extractLoopAux_early_stop (extract : List Char → ExtractionResult)
    (l : List (List Char)) :
    ∀ acc j, 1 ≤ j →
      isFullyResolved (mergeExtractionResults (acc ++ (l.take j).map extract)) = true →
      isFullyResolved (mergeExtractionResults acc) = false →
      (extractLoopAux extract acc l).length ≤ acc.length + j := by
  induction l with
  | nil =>
    intro acc j hj h1 h2
    simp at h1
    rw [h1] at h2
    cases h2
  | cons c rest ih =>
    intro acc j hj h1 h2
    simp only [extractLoopAux]
    by_cases hres : isFullyResolved (mergeExtractionResults (acc ++ [extract c])) = true
    · rw [if_pos hres]
      simp
      omega
    · rw [if_neg hres]
      cases j with
      | zero => omega
      | succ j' =>
        cases j' with
        | zero =>
          simp only [List.take_succ_cons, List.take_zero, List.map_cons, List.map_nil] at h1
          exact absurd h1 (by simpa using hres)
        | succ j'' =>
          have h1' : isFullyResolved (mergeExtractionResults
              ((acc ++ [extract c]) ++ (rest.take (j'' + 1)).map extract)) = true := by
            simp only [List.take_succ_cons, List.map_cons] at h1
            simpa [List.append_assoc] using h1
          have := ih (acc ++ [extract c]) (j'' + 1) (by omega) h1' (by simpa using hres)
          simp only [List.length_append, List.length_cons, List.length_nil] at this
          omega

/-! ## The 250,000-character scenario -/

theorem searchLen_le (m : Nat) : searchLen m ≤ m := by
  unfold searchLen
  have := Nat.div_le_self m 5
  omega

/-- Interior windows end at most `searchLen` before the raw cut. -/
theorem chunkEnd_lower (content : List Char) (cfg : ChunkConfig) (p : Nat)
    (h : p + cfg.maxChunkSize < content.length)
    (hs : 1 ≤ searchLen cfg.maxChunkSize) :
    p + cfg.maxChunkSize + 1 ≤ chunkEnd content cfg p + searchLen cfg.maxChunkSize := by
  rw [chunkEnd_eq_offsetD content cfg p h]
  have hsle := searchLen_le cfg.maxChunkSize
  have hA : p + cfg.maxChunkSize - searchLen cfg.maxChunkSize ≤ chunkSearchStart content cfg p
      ∧ chunkSearchStart content cfg p ≤ p + cfg.maxChunkSize - 1 := by
    unfold chunkSearchStart
    omega
  have hreg : 1 ≤ (chunkRegion content cfg p).length := by
    rw [chunkRegion_length]
    omega
  have := breakOffsetD_ge_one (chunkRegion content cfg p) hreg
  omega

theorem chunkEnd_final (content : List Char) (cfg : ChunkConfig) (p : Nat)
    (h : content.length ≤ p + cfg.maxChunkSize) : chunkEnd content cfg p = content.length := by
  simp only [chunkEnd]
  rw [if_neg (by omega)]
  omega

theorem nextPos_eq_sub (content : List Char) (cfg : ChunkConfig) (p : Nat)
    (h : p + cfg.overlapSize < chunkEnd content cfg p) :
    nextPos content cfg p = chunkEnd content cfg p - cfg.overlapSize := by
  unfold nextPos
  rw [if_pos (by omega)]

theorem splitLoop_len_final (content : List Char) (cfg : ChunkConfig) (fuel p : Nat)
    (hp : p < content.length) (he : content.length ≤ chunkEnd content cfg p) :
    (splitLoop content cfg (fuel + 1) p).length = 1 := by
  simp only [splitLoop, if_pos hp]
  rw [if_pos he]
  rfl

theorem splitLoop_len_step (content : List Char) (cfg : ChunkConfig) (fuel p : Nat)
    (hp : p < content.length) (he : chunkEnd content cfg p < content.length) :
    (splitLoop content cfg (fuel + 1) p).length
      = (splitLoop content cfg fuel (nextPos content cfg p)).length + 1 := by
  simp only [splitLoop, if_pos hp]
  rw [if_neg (by omega)]
  simp

/-- With the scenario configuration, every 250,000-character content is split
into exactly 6 chunks: the overlap holds each advance to at most 49,500
characters, and the break-point search to at least 49,301, so the final
window is reached after exactly five advances. -/
theorem totalChunks_250k (content : List Char) (hlen : content.length = 250000) :
    (splitIntoChunks content
      { maxChunkSize := 50000, sizeThreshold := 100000, overlapSize := 500,
        maxExtractionChunks := 5 }).length = 6 := by
  set cfg : ChunkConfig :=
    { maxChunkSize := 50000, sizeThreshold := 100000, overlapSize := 500,
      maxExtractionChunks := 5 } with hcfg
  have hM : cfg.maxChunkSize = 50000 := rfl
  have hO : cfg.overlapSize = 500 := rfl
  have hstep : ∀ p, p + 50000 < 250000 →
      p + 49301 ≤ nextPos content cfg p ∧ nextPos content cfg p ≤ p + 49500
        ∧ chunkEnd content cfg p < content.length ∧ p < content.length := by
    intro p hp
    have h1 : p + cfg.maxChunkSize < content.length := by rw [hM, hlen]; omega
    have hlow := chunkEnd_lower content cfg p h1 (by rw [hM]; decide)
    have hup := chunkEnd_le_window content cfg p
    have hsl : searchLen cfg.maxChunkSize = 200 := by rw [hM]; decide
    rw [hsl] at hlow
    rw [hM] at hlow hup
    have hnp := nextPos_eq_sub content cfg p (by rw [hO]; omega)
    rw [hO] at hnp
    rw [hlen]
    constructor
    · omega
    constructor
    · omega
    constructor
    · omega
    · omega
  unfold splitIntoChunks
  rw [if_neg (by rw [hM, hlen]; omega)]
  rw [hlen]
  have s0 := hstep 0 (by omega)
  have s1 := hstep (nextPos content cfg 0) (by omega)
  have s2 := hstep (nextPos content cfg (nextPos content cfg 0)) (by omega)
  have s3 := hstep (nextPos content cfg (nextPos content cfg (nextPos content cfg 0)))
    (by omega)
  have s4 := hstep (nextPos content cfg (nextPos content cfg (nextPos content cfg
    (nextPos content cfg 0)))) (by omega)
  set p1 := nextPos content cfg 0
  set p2 := nextPos content cfg p1
  set p3 := nextPos content cfg p2
  set p4 := nextPos content cfg p3
  set p5 := nextPos content cfg p4
  have hp5lt : p5 < content.length := by rw [hlen]; omega
  have hp5fin : content.length ≤ chunkEnd content cfg p5 := by
    rw [chunkEnd_final content cfg p5 (by rw [hM, hlen]; omega)]
  have e250000 : (250000 : Nat) = 249999 + 1 := by norm_num
  have e249999 : (249999 : Nat) = 249998 + 1 := by norm_num
  have e249998 : (249998 : Nat) = 249997 + 1 := by norm_num
  have e249997 : (249997 : Nat) = 249996 + 1 := by norm_num
  have e249996 : (249996 : Nat) = 249995 + 1 := by norm_num
  have e249995 : (249995 : Nat) = 249994 + 1 := by norm_num
  rw [e250000, splitLoop_len_step content cfg 249999 0 s0.2.2.2 s0.2.2.1]
  rw [e249999, splitLoop_len_step content cfg 249998 p1 s1.2.2.2 s1.2.2.1]
  rw [e249998, splitLoop_len_step content cfg 249997 p2 s2.2.2.2 s2.2.2.1]
  rw [e249997, splitLoop_len_step content cfg 249996 p3 s3.2.2.2 s3.2.2.1]
  rw [e249996, splitLoop_len_step content cfg 249995 p4 s4.2.2.2 s4.2.2.1]
  rw [e249995, splitLoop_len_final content cfg 249994 p5 hp5lt hp5fin]

/-- C5 (amended: 6 chunks, not 5): a 250,000-character document with
`sizeThreshold` 100,000 and `maxChunkSize` 50,000 is chunked into exactly 6
chunks (the 500-character overlap caps each advance at 49,500, so five
advances are needed to reach the final window); classification is computed
from chunk 0 only; at most `maxExtractionChunks = 5` extraction calls are
issued, and fewer when the merged extraction resolves earlier. -/
theorem c5_chunked_scenario (classify : List Char → ClassificationResult)
    (extract : List Char → ExtractionResult) (content : List Char)
    (hlen : content.length = 250000) :
    (processDocumentChunked classify extract content
        { maxChunkSize := 50000, sizeThreshold := 100000, overlapSize := 500,
          maxExtractionChunks := 5 }).chunkingInfo.wasChunked = true
    ∧ (processDocumentChunked classify extract content
        { maxChunkSize := 50000, sizeThreshold := 100000, overlapSize := 500,
          maxExtractionChunks := 5 }).chunkingInfo.totalChunks = 6
    ∧ (processDocumentChunked classify extract content
        { maxChunkSize := 50000, sizeThreshold := 100000, overlapSize := 500,
          maxExtractionChunks := 5 }).classification
      = classify ((splitIntoChunks content
          { maxChunkSize := 50000, sizeThreshold := 100000, overlapSize := 500,
            maxExtractionChunks := 5 }).headD [])
    ∧ (processDocumentChunked classify extract content
        { maxChunkSize := 50000, sizeThreshold := 100000, overlapSize := 500,
          maxExtractionChunks := 5 }).chunkingInfo.chunksProcessed ≤ 5
    ∧ ∀ j, 1 ≤ j →
        isFullyResolved (mergeExtractionResults
          ((((splitIntoChunks content
              { maxChunkSize := 50000, sizeThreshold := 100000, overlapSize := 500,
                maxExtractionChunks := 5 }).take 5).take j).map extract)) = true →
        (processDocumentChunked classify extract content
          { maxChunkSize := 50000, sizeThreshold := 100000, overlapSize := 500,
            maxExtractionChunks := 5 }).chunkingInfo.chunksProcessed ≤ j := by
  have hneed : needsChunking content
      { maxChunkSize := 50000, sizeThreshold := 100000, overlapSize := 500,
        maxExtractionChunks := 5 } = true := by
    simp [needsChunking, hlen]
  simp only [processDocumentChunked, hneed, if_true]
  refine ⟨by trivial, totalChunks_250k content hlen, by trivial, ?_, ?_⟩
  · have h1 := extractLoopAux_length extract
      ((splitIntoChunks content
        { maxChunkSize := 50000, sizeThreshold := 100000, overlapSize := 500,
          maxExtractionChunks := 5 }).take 5) []
    have h2 : ((splitIntoChunks content
        { maxChunkSize := 50000, sizeThreshold := 100000, overlapSize := 500,
          maxExtractionChunks := 5 }).take 5).length ≤ 5 := by
      rw [List.length_take]
      omega
    simp only [List.length_nil] at h1
    omega
  · intro j hj hres
    have := extractLoopAux_early_stop extract
      ((splitIntoChunks content
        { maxChunkSize := 50000, sizeThreshold := 100000, overlapSize := 500,
          maxExtractionChunks := 5 }).take 5) [] j hj (by simpa using hres) (by decide)
    simpa using this

theorem c5_chunked_scenario_cex :
    (processDocumentChunked (fun _ => ⟨"other", "low", "r"⟩)
        (fun _ => ⟨"unknown", "unknown", "unknown", none⟩)
        (List.replicate 250000 'a')
        { maxChunkSize := 50000, sizeThreshold := 100000, overlapSize := 500,
          maxExtractionChunks := 5 }).chunkingInfo.totalChunks = 6
    ∧ (processDocumentChunked (fun _ => ⟨"other", "low", "r"⟩)
        (fun _ => ⟨"unknown", "unknown", "unknown", none⟩)
        (List.replicate 250000 'a')
        { maxChunkSize := 50000, sizeThreshold := 100000, overlapSize := 500,
          maxExtractionChunks := 5 }).chunkingInfo.totalChunks ≠ 5 := by
  have hlen : (List.replicate 250000 'a').length = 250000 := by
    rw [List.length_replicate]
  have hneed : needsChunking (List.replicate 250000 'a')
      { maxChunkSize := 50000, sizeThreshold := 100000, overlapSize := 500,
        maxExtractionChunks := 5 } = true := by
    unfold needsChunking
    rw [hlen]
    decide
  simp only [processDocumentChunked, hneed, if_true]
  have h6 := totalChunks_250k (List.replicate 250000 'a') hlen
  constructor
  · exact h6
  · omega

theorem c5_chunked_scenario_witness :
    (List.replicate 250000 'a').length = 250000
    ∧ ((processDocumentChunked (fun _ => ⟨"other", "low", "r"⟩)
          (fun _ => ⟨"unknown", "unknown", "unknown", none⟩)
          (List.replicate 250000 'a')
          { maxChunkSize := 50000, sizeThreshold := 100000, overlapSize := 500,
            maxExtractionChunks := 5 }).chunkingInfo.wasChunked = true
      ∧ (processDocumentChunked (fun _ => ⟨"other", "low", "r"⟩)
          (fun _ => ⟨"unknown", "unknown", "unknown", none⟩)
          (List.replicate 250000 'a')
          { maxChunkSize := 50000, sizeThreshold := 100000, overlapSize := 500,
            maxExtractionChunks := 5 }).chunkingInfo.totalChunks = 6
      ∧ (processDocumentChunked (fun _ => ⟨"other", "low", "r"⟩)
          (fun _ => ⟨"unknown", "unknown", "unknown", none⟩)
          (List.replicate 250000 'a')
          { maxChunkSize := 50000, sizeThreshold := 100000, overlapSize := 500,
            maxExtractionChunks := 5 }).chunkingInfo.chunksProcessed ≤ 5) := by
  have hlen : (List.replicate 250000 'a').length = 250000 := by
    rw [List.length_replicate]
  have h := c5_chunked_scenario (fun _ => ⟨"other", "low", "r"⟩)
    (fun _ => ⟨"unknown", "unknown", "unknown", none⟩) (List.replicate 250000 'a') hlen
  exact ⟨hlen, h.1, h.2.1, h.2.2.2.1⟩

/-! ## Content cache (`organizeDocuments.ts`)

The SHA-256 content fingerprint (`node:crypto`) is an oracle parameter
`hash`; disk writes are counted so that "performs no write" is observable. -/

/-- `CachedDocumentResult`. -/
structure CachedDocumentResult where
  classification : ClassificationResult
  extraction : ExtractionResult
  timestamp : Nat
deriving Repr, DecidableEq

/-- `CacheData`: the versioned envelope. -/
structure CacheData where
  version : Nat
  entries : List (String × CachedDocumentResult)
deriving Repr, DecidableEq

def CACHE_VERSION : Nat := 1

/-- The in-memory state of a `DocumentCache` instance. -/
structure DocumentCache where
  cache : CacheData
  cacheFile : String
  dirty : Bool
deriving Repr, DecidableEq

/-- The persisted side: the cache file contents plus a write counter. -/
structure CacheDisk where
  file : Option CacheData
  writes : Nat
deriving Repr, DecidableEq

/-- `loadCache`: version mismatch (or no file) starts fresh. -/
def loadCache (file : Option CacheData) : CacheData :=
  match file with
  | some c => if c.version = CACHE_VERSION then c else { version := CACHE_VERSION, entries := [] }
  | none => { version := CACHE_VERSION, entries := [] }

/-- `saveCache`: write the envelope to disk. -/
def saveCache (c : CacheData) (d : CacheDisk) : CacheDisk :=
  { file := some c, writes := d.writes + 1 }

/-- The `DocumentCache` constructor: load the file; `dirty` starts `false`. -/
def mkDocumentCache (cacheFile : String) (d : CacheDisk) : DocumentCache :=
  { cache := loadCache d.file, cacheFile := cacheFile, dirty := false }

/-- `getCachedResult` via the content hash. -/
def DocumentCache.get (hash : String → String) (st : DocumentCache)
    (content : String) : Option CachedDocumentResult :=
  alistLookup st.cache.entries (hash content)

/-- `set`: store the entry under the content hash and mark dirty. -/
def DocumentCache.set (hash : String → String) (st : DocumentCache) (content : String)
    (cls : ClassificationResult) (ext : ExtractionResult) (ts : Nat) : DocumentCache :=
  let h := hash content
  let entries :=
    match alistLookup st.cache.entries h with
    | some _ => updateAt st.cache.entries h (fun _ => ⟨cls, ext, ts⟩)
    | none => st.cache.entries ++ [(h, ⟨cls, ext, ts⟩)]
  { st with cache := { st.cache with entries := entries }, dirty := true }

/-- `save`: write only when dirty, then clear the flag. -/
def DocumentCache.save (st : DocumentCache) (d : CacheDisk) : DocumentCache × CacheDisk :=
  if st.dirty then ({ st with dirty := false }, saveCache st.cache d)
  else (st, d)

/-- `clear`: reset the entries and mark dirty. -/
def DocumentCache.clear (st : DocumentCache) : DocumentCache :=
  { st with cache := { version := CACHE_VERSION, entries := [] }, dirty := true }

/-- The operations a caller can perform on a cache instance. -/
inductive CacheOp where
  | setOp (content : String) (cls : ClassificationResult) (ext : ExtractionResult) (ts : Nat)
  | saveOp
  | clearOp
  | getOp (content : String)
deriving Repr, DecidableEq

def applyOp (hash : String → String) (sd : DocumentCache × CacheDisk) (op : CacheOp) :
    DocumentCache × CacheDisk :=
  match op with
  | CacheOp.setOp content cls ext ts => (DocumentCache.set hash sd.1 content cls ext ts, sd.2)
  | CacheOp.saveOp => DocumentCache.save sd.1 sd.2
  | CacheOp.clearOp => (DocumentCache.clear sd.1, sd.2)
  | CacheOp.getOp _ => sd

def runOps (hash : String → String) (sd : DocumentCache × CacheDisk)
    (ops : List CacheOp) : DocumentCache × CacheDisk :=
  ops.foldl (applyOp hash) sd

/-- Does the operation mark the cache dirty? (`set` and `clear` both do.) -/
def isMutatingOp : CacheOp → Bool
  | CacheOp.setOp _ _ _ _ => true
  | CacheOp.clearOp => true
  | _ => false

/-- Is the operation a `set`? (`clear` is not, though it also dirties.) -/
def isSetOp : CacheOp → Bool
  | CacheOp.setOp _ _ _ _ => true
  | _ => false

/-- The operations executed since the most recent `save` (or since the
start, if no save occurred). -/
def sinceLastSave (ops : List CacheOp) : List CacheOp :=
  ops.foldl (fun acc op => match op with
    | CacheOp.saveOp => []
    | _ => acc ++ [op]) []

theorem sinceLastSave_append_one (ops : List CacheOp) (op : CacheOp) :
    sinceLastSave (ops ++ [op])
      = match op with
        | CacheOp.saveOp => []
        | _ => sinceLastSave ops ++ [op] := by
  unfold sinceLastSave
  rw [List.foldl_append]
  rfl

theorem applyOp_save_dirty (hash : String → String) (sd : DocumentCache × CacheDisk) :
    (applyOp hash sd CacheOp.saveOp).1.dirty = false := by
  simp only [applyOp]
  unfold DocumentCache.save
  by_cases hd : sd.1.dirty = true
  · rw [if_pos hd]
  · rw [if_neg hd]
    simpa using hd

theorem applyOp_get_dirty (hash : String → String) (sd : DocumentCache × CacheDisk)
    (content : String) : (applyOp hash sd (CacheOp.getOp content)).1.dirty = sd.1.dirty := rfl

theorem dirty_false_of_clean_ops (hash : String → String) :
    ∀ ops sd, (∀ op ∈ sinceLastSave ops, isMutatingOp op = false) →
      sd.1.dirty = false → (runOps hash sd ops).1.dirty = false := by
  intro ops
  induction ops using List.reverseRecOn with
  | nil => intro sd _ h2; exact h2
  | append_singleton ops op ih =>
    intro sd h1 h2
    unfold runOps
    rw [List.foldl_append]
    simp only [List.foldl_cons, List.foldl_nil]
    cases op with
    | saveOp => exact applyOp_save_dirty hash _
    | setOp content cls ext ts =>
      exfalso
      have : isMutatingOp (CacheOp.setOp content cls ext ts) = false := by
        apply h1
        rw [sinceLastSave_append_one]
        simp
      simp [isMutatingOp] at this
    | clearOp =>
      exfalso
      have : isMutatingOp CacheOp.clearOp = false := by
        apply h1
        rw [sinceLastSave_append_one]
        simp
      simp [isMutatingOp] at this
    | getOp content =>
      rw [applyOp_get_dirty]
      apply ih sd _ h2
      intro x hx
      apply h1
      rw [sinceLastSave_append_one]
      simp only []
      exact List.mem_append_left _ hx

/-- C7 (amended: no `set` and no `clear`): starting from a freshly
constructed cache, if no `set` and no `clear` has occurred since the most
recent save (or since construction), `save()` performs no write and leaves
the persisted cache file unchanged. -/
theorem c7_save_noop (hash : String → String) (cacheFile : String) (d0 : CacheDisk)
    (ops : List CacheOp)
    (hclean : ∀ op ∈ sinceLastSave ops, isMutatingOp op = false) :
    DocumentCache.save
        (runOps hash (mkDocumentCache cacheFile d0, d0) ops).1
        (runOps hash (mkDocumentCache cacheFile d0, d0) ops).2
      = runOps hash (mkDocumentCache cacheFile d0, d0) ops := by
  have hdirty : (runOps hash (mkDocumentCache cacheFile d0, d0) ops).1.dirty = false :=
    dirty_false_of_clean_ops hash ops (mkDocumentCache cacheFile d0, d0) hclean rfl
  unfold DocumentCache.save
  rw [if_neg (by rw [hdirty]; simp)]

theorem c7_save_noop_cex :
    DocumentCache.save
        (runOps (fun _ => "h") (mkDocumentCache "f" ⟨none, 0⟩, ⟨none, 0⟩) [CacheOp.clearOp]).1
        (runOps (fun _ => "h") (mkDocumentCache "f" ⟨none, 0⟩, ⟨none, 0⟩) [CacheOp.clearOp]).2
      ≠ runOps (fun _ => "h") (mkDocumentCache "f" ⟨none, 0⟩, ⟨none, 0⟩) [CacheOp.clearOp]
    ∧ (DocumentCache.save
        (runOps (fun _ => "h") (mkDocumentCache "f" ⟨none, 0⟩, ⟨none, 0⟩) [CacheOp.clearOp]).1
        (runOps (fun _ => "h") (mkDocumentCache "f" ⟨none, 0⟩, ⟨none, 0⟩) [CacheOp.clearOp]).2).2.writes
      = 1
    ∧ (∀ op ∈ sinceLastSave [CacheOp.clearOp], isSetOp op = false) := by
  refine ⟨?_, by decide, by decide⟩
  decide

theorem c7_save_noop_witness :
    (∀ op ∈ sinceLastSave [CacheOp.getOp "x", CacheOp.getOp "y"], isMutatingOp op = false)
    ∧ DocumentCache.save
        (runOps (fun _ => "h") (mkDocumentCache "f" ⟨none, 0⟩, ⟨none, 0⟩)
          [CacheOp.getOp "x", CacheOp.getOp "y"]).1
        (runOps (fun _ => "h") (mkDocumentCache "f" ⟨none, 0⟩, ⟨none, 0⟩)
          [CacheOp.getOp "x", CacheOp.getOp "y"]).2
      = runOps (fun _ => "h") (mkDocumentCache "f" ⟨none, 0⟩, ⟨none, 0⟩)
          [CacheOp.getOp "x", CacheOp.getOp "y"] :=
  ⟨by decide,
   c7_save_noop (fun _ => "h") "f" ⟨none, 0⟩ [CacheOp.getOp "x", CacheOp.getOp "y"]
     (by decide)⟩

/-! ## Lease query API (`leaseQuery` module) -/

def DEFAULT_GROUPING_FILE : String := ".document-grouping.json"

/-- `loadGroupingResult` abstracted over the snapshot on disk. -/
def loadGroupingResult (file : Option GroupingResult) : Option GroupingResult := file

/-- `LeaseDetails`. -/
structure LeaseDetails where
  lessor : String
  address : String
  leaseFile : LeaseFile
  documents : List ProcessedDocument
deriving Repr, DecidableEq

/-- The `LeaseQuery` constructor: fail fast with a typed error when no
grouping snapshot can be loaded. -/
def mkLeaseQuery (filePath : String) (file : Option GroupingResult) :
    Except String GroupingResult :=
  match loadGroupingResult file with
  | none => Except.error
      ("No grouping data found at " ++ filePath ++ ". Run organizeDocuments() first.")
  | some r => Except.ok r

/-- `getLessors`. -/
def getLessors (q : GroupingResult) : List String :=
  q.grouped.map (·.1)

/-- `getAddresses`: empty for an unknown lessor. -/
def getAddresses (q : GroupingResult) (lessor : String) : List String :=
  match alistLookup q.grouped lessor with
  | some lessorData => lessorData.map (·.1)
  | none => []

/-- `getLeaseDetails`: `none` for an unknown lessor or address. -/
def getLeaseDetails (q : GroupingResult) (lessor address : String) : Option LeaseDetails :=
  match alistLookup q.grouped lessor with
  | none => none
  | some lessorData =>
    match alistLookup lessorData address with
    | none => none
    | some addressData =>
      some { lessor := lessor, address := address,
             leaseFile := addressData.leaseFile, documents := addressData.documents }

/-- `getAmendments`: id-membership filter over the bundle's amendment list. -/
def getAmendments (q : GroupingResult) (lessor address : String) : List ProcessedDocument :=
  match getLeaseDetails q lessor address with
  | none => []
  | some details =>
    details.documents.filter (fun doc => details.leaseFile.amendments.contains doc.id)

/-- `getCommencements`. -/
def getCommencements (q : GroupingResult) (lessor address : String) : List ProcessedDocument :=
  match getLeaseDetails q lessor address with
  | none => []
  | some details =>
    details.documents.filter (fun doc => details.leaseFile.commencements.contains doc.id)

/-- `getDeliveries`. -/
def getDeliveries (q : GroupingResult) (lessor address : String) : List ProcessedDocument :=
  match getLeaseDetails q lessor address with
  | none => []
  | some details =>
    details.documents.filter (fun doc => details.leaseFile.deliveries.contains doc.id)

/-- `getBaseLease`: `null` when the lease details are absent, the
`baseLease` slot is falsy, or the referenced document is missing. -/
def getBaseLease (q : GroupingResult) (lessor address : String) : Option ProcessedDocument :=
  match getLeaseDetails q lessor address with
  | none => none
  | some details =>
    match details.leaseFile.baseLease with
    | none => none
    | some b =>
      if b = "" then none
      else details.documents.find? (fun doc => doc.id == b)

/-- `findDocumentById`: grouped buckets first, then the ungrouped list. -/
def findDocumentById (q : GroupingResult) (documentId : String) :
    Option (ProcessedDocument × String × String) :=
  match q.grouped.findSome? (fun p =>
    p.2.findSome? (fun a =>
      (a.2.documents.find? (fun d => d.id == documentId)).map
        (fun d => (d, p.1, a.1)))) with
  | some r => some r
  | none =>
    (q.ungrouped.find? (fun d => d.id == documentId)).map
      (fun d => (d, "unknown", "unknown"))

/-- All ids a `findDocumentById` search can visit. -/
def allDocIds (q : GroupingResult) : List String :=
  (q.grouped.map (fun p => (p.2.map (fun a => a.2.documents.map (·.id))).flatten)).flatten
    ++ q.ungrouped.map (·.id)

/-- C9: constructing a query session with no snapshot is a distinguished
typed error, while narrow lookups on unknown keys return empty or absent
values: `getAddresses` of an unknown lessor is `[]`; `getLeaseDetails`,
`getBaseLease` and `findDocumentById` return `none` for unknown
lessor/address/document id; `getAmendments`, `getCommencements` and
`getDeliveries` return `[]`. -/
theorem c9_query_fallbacks (filePath : String) (q : GroupingResult)
    (lessor address docId : String)
    (hl : alistLookup q.grouped lessor = none)
    (haddr : ∀ p ∈ q.grouped, alistLookup p.2 address = none)
    (hid : docId ∉ allDocIds q) :
    mkLeaseQuery filePath none
      = Except.error
          ("No grouping data found at " ++ filePath ++ ". Run organizeDocuments() first.")
    ∧ getAddresses q lessor = []
    ∧ getLeaseDetails q lessor address = none
    ∧ (∀ l, getLeaseDetails q l address = none)
    ∧ getBaseLease q lessor address = none
    ∧ getAmendments q lessor address = []
    ∧ getCommencements q lessor address = []
    ∧ getDeliveries q lessor address = []
    ∧ findDocumentById q docId = none := by
  have hdet : ∀ l, getLeaseDetails q l address = none := by
    intro l
    unfold getLeaseDetails
    cases hld : alistLookup q.grouped l with
    | none => rfl
    | some lessorData =>
      rcases lookup_mem hld with ⟨p, hp, hp2⟩
      have := haddr p hp
      rw [hp2] at this
      dsimp only
      rw [this]
  have hdetl : getLeaseDetails q lessor address = none := by
    unfold getLeaseDetails
    rw [hl]
  refine ⟨rfl, ?_, hdetl, hdet, ?_, ?_, ?_, ?_, ?_⟩
  · unfold getAddresses
    rw [hl]
  · unfold getBaseLease
    rw [hdetl]
  · unfold getAmendments
    rw [hdetl]
  · unfold getCommencements
    rw [hdetl]
  · unfold getDeliveries
    rw [hdetl]
  · unfold findDocumentById
    have hgrouped : q.grouped.findSome? (fun p =>
        p.2.findSome? (fun a =>
          (a.2.documents.find? (fun d => d.id == docId)).map
            (fun d => (d, p.1, a.1)))) = none := by
      apply List.findSome?_eq_none_iff.mpr
      intro p hp
      apply List.findSome?_eq_none_iff.mpr
      intro a ha
      have hfind : a.2.documents.find? (fun d => d.id == docId) = none := by
        apply List.find?_eq_none.mpr
        intro d hd
        simp only [beq_iff_eq]
        intro hdid
        apply hid
        unfold allDocIds
        apply List.mem_append_left
        simp only [List.mem_flatten, List.mem_map]
        refine ⟨(p.2.map (fun a => a.2.documents.map (·.id))).flatten, ⟨p, hp, rfl⟩, ?_⟩
        simp only [List.mem_flatten, List.mem_map]
        refine ⟨a.2.documents.map (·.id), ⟨a, ha, rfl⟩, ?_⟩
        simp only [List.mem_map]
        exact ⟨d, hd, hdid⟩
      rw [hfind]
      rfl
    rw [hgrouped]
    have hung : q.ungrouped.find? (fun d => d.id == docId) = none := by
      apply List.find?_eq_none.mpr
      intro d hd
      simp only [beq_iff_eq]
      intro hdid
      apply hid
      unfold allDocIds
      apply List.mem_append_right
      simp only [List.mem_map]
      exact ⟨d, hd, hdid⟩
    rw [hung]
    rfl

theorem c9_query_fallbacks_witness :
    (alistLookup
        (⟨[("Acme",
            [("1 Main",
              (⟨⟨some "doc-1", ["doc-2"], [], [], []⟩, []⟩ : AddressGroup))])],
          [], ⟨2, 2, 0, 1, 1⟩⟩ : GroupingResult).grouped "Nobody" = none
      ∧ (∀ p ∈ (⟨[("Acme",
            [("1 Main",
              (⟨⟨some "doc-1", ["doc-2"], [], [], []⟩, []⟩ : AddressGroup))])],
          [], ⟨2, 2, 0, 1, 1⟩⟩ : GroupingResult).grouped,
          alistLookup p.2 "Nowhere" = none)
      ∧ "zzz" ∉ allDocIds (⟨[("Acme",
            [("1 Main",
              (⟨⟨some "doc-1", ["doc-2"], [], [], []⟩, []⟩ : AddressGroup))])],
          [], ⟨2, 2, 0, 1, 1⟩⟩ : GroupingResult))
    ∧ (mkLeaseQuery ".document-grouping.json" none
        = Except.error ("No grouping data found at " ++ ".document-grouping.json"
            ++ ". Run organizeDocuments() first.")
      ∧ getAddresses (⟨[("Acme",
            [("1 Main",
              (⟨⟨some "doc-1", ["doc-2"], [], [], []⟩, []⟩ : AddressGroup))])],
          [], ⟨2, 2, 0, 1, 1⟩⟩ : GroupingResult) "Nobody" = []
      ∧ getLeaseDetails (⟨[("Acme",
            [("1 Main",
              (⟨⟨some "doc-1", ["doc-2"], [], [], []⟩, []⟩ : AddressGroup))])],
          [], ⟨2, 2, 0, 1, 1⟩⟩ : GroupingResult) "Nobody" "Nowhere" = none
      ∧ findDocumentById (⟨[("Acme",
            [("1 Main",
              (⟨⟨some "doc-1", ["doc-2"], [], [], []⟩, []⟩ : AddressGroup))])],
          [], ⟨2, 2, 0, 1, 1⟩⟩ : GroupingResult) "zzz" = none) := by
  have h := c9_query_fallbacks ".document-grouping.json"
    (⟨[("Acme",
        [("1 Main",
          (⟨⟨some "doc-1", ["doc-2"], [], [], []⟩, []⟩ : AddressGroup))])],
      [], ⟨2, 2, 0, 1, 1⟩⟩ : GroupingResult)
    "Nobody" "Nowhere" "zzz" (by decide) (by decide) (by decide)
  exact ⟨⟨by decide, by decide, by decide⟩, h.1, h.2.1, h.2.2.1, h.2.2.2.2.2.2.2.2⟩
